import Mathlib

/-!
Verification development for the vdb embedded key-value store.

The development shallowly embeds three parts of the codebase:
  - the composite key codec of vdb_key (src/vdb_key/src/lib.rs),
  - the wire value codec of vdb_value (src/vdb_value),
  - the versioned table and secondary-index engine of vdb_table
    (src/vdb_table/src/table, src/vdb_table/src/index).

Byte strings are lists of naturals; every encoder produces values below 256.
Machine integers (i64, u32, u64) are modelled as Int/Nat with explicit
two's-complement conversion where the code reinterprets bits.  f64 values are
modelled by their IEEE-754 bit patterns (a Nat below 2^64), with the Rust
comparison operators reproduced at the bit level.  SQLite statements are
translated to explicit list manipulations on a state record; a transaction is
modelled by returning the caller's original state whenever the operation
fails.
-/

namespace VDB

/-- Byte strings: lists of naturals.  Encoders only produce values < 256. -/
abbrev Bytes := List Nat

/-- Unsigned lexicographic comparison of byte strings, as Rust derives Ord
for Vec of u8: elementwise, a strict prefix is smaller. -/
def lexCompare : Bytes → Bytes → Ordering
  | [], [] => .eq
  | [], _ :: _ => .lt
  | _ :: _, [] => .gt
  | a :: x, b :: y => (compare a b).then (lexCompare x y)

/-- Big-endian encoding of a natural in w bytes, as produced by the Rust
to_be_bytes family once the integer is reinterpreted as unsigned. -/
def beBytes : Nat → Nat → Bytes
  | 0, _ => []
  | w + 1, n => n / 256 ^ w :: beBytes w (n % 256 ^ w)

/-- Value of a big-endian byte string, as computed by from_be_bytes. -/
def beVal : Bytes → Nat
  | [] => 0
  | b :: rest => b * 256 ^ rest.length + beVal rest

/-- Reinterpret an i64 as a u64 (the cast done implicitly by to_be_bytes on
a two's-complement machine). -/
def i64ToU64 (n : Int) : Nat := (n % (2 : Int) ^ 64).toNat

/-- Reinterpret a u64 bit pattern as an i64 (i64::from_be_bytes). -/
def u64ToI64 (m : Nat) : Int :=
  if m < 2 ^ 63 then (m : Int) else (m : Int) - 2 ^ 64

/-! ## Key codec (src/vdb_key/src/lib.rs) -/

/-- A key component: i64, f64 (by bit pattern), or a byte payload. -/
inductive Component where
  | i64 (v : Int)
  | f64 (bits : Nat)
  | bytes (v : Bytes)
deriving DecidableEq, Repr

/-- The numeric type tag of a component (Ty enum: I64 = 1, F64 = 2, Bytes = 3). -/
def Component.tyTag : Component → Nat
  | .i64 _ => 1
  | .f64 _ => 2
  | .bytes _ => 3

/-- escape_bytes: double every 0x00 of the payload and append the 0x00
terminator. -/
def escape_bytes : Bytes → Bytes
  | [] => [0]
  | b :: rest => (if b = 0 then [0, 0] else [b]) ++ escape_bytes rest

/-- The loop of parse_bytes, carrying the escaping flag and the output
accumulator.  Returns (remaining input, decoded payload); the source panics
when the input ends while not escaping, modelled as none. -/
def parse_bytes_go (escaping : Bool) (acc : Bytes) : Bytes → Option (Bytes × Bytes)
  | [] => if escaping then some ([], acc) else none
  | b :: rest =>
    if b = 0 then
      if escaping then parse_bytes_go false (acc ++ [0]) rest
      else parse_bytes_go true acc rest
    else
      if escaping then some (b :: rest, acc)
      else parse_bytes_go false (acc ++ [b]) rest

/-- parse_bytes: consume one byte-stuffed payload up to its unescaped 0x00
terminator. -/
def parse_bytes (val : Bytes) : Option (Bytes × Bytes) := parse_bytes_go false [] val

/-- Key.append_i64: push tag 1 then the 8-byte big-endian two's complement. -/
def append_i64 (storage : Bytes) (v : Int) : Bytes :=
  storage ++ 1 :: beBytes 8 (i64ToU64 v)

/-- Key.append_f64: push tag 2 then the 8 bytes of the bit pattern. -/
def append_f64 (storage : Bytes) (bits : Nat) : Bytes :=
  storage ++ 2 :: beBytes 8 bits

/-- Key.append_bytes: push tag 3 then the escaped payload. -/
def append_bytes (storage : Bytes) (v : Bytes) : Bytes :=
  storage ++ 3 :: escape_bytes v

/-- Key.append_component dispatches on the component kind. -/
def append_component (storage : Bytes) : Component → Bytes
  | .i64 v => append_i64 storage v
  | .f64 bits => append_f64 storage bits
  | .bytes v => append_bytes storage v

/-- Key::from for a component slice: fold append_component over empty storage
(the capacity hint of the source does not affect the bytes). -/
def keyFromComponents (cs : List Component) : Bytes :=
  cs.foldl append_component []

/-- The encoding of a single component (what append_component appends). -/
def encodeComponent (c : Component) : Bytes := append_component [] c

/-- Catenation of per-component encodings; equal to keyFromComponents. -/
def encodeComponents : List Component → Bytes
  | [] => []
  | c :: rest => encodeComponent c ++ encodeComponents rest

/-- The loop of Key.as_components, with fuel bounding the number of decoded
components (each component consumes at least one byte, so the byte length of
the storage is always enough fuel).  The source panics on an invalid tag, on
a short i64/f64 body and on a missing bytes terminator; all are modelled as
none. -/
def as_components_go : Nat → Bytes → Option (List Component)
  | _, [] => some []
  | 0, _ :: _ => none
  | fuel + 1, t :: rest =>
    if t = 1 then
      if 8 ≤ rest.length then
        (as_components_go fuel (rest.drop 8)).map
          (fun cs => Component.i64 (u64ToI64 (beVal (rest.take 8))) :: cs)
      else none
    else if t = 2 then
      if 8 ≤ rest.length then
        (as_components_go fuel (rest.drop 8)).map
          (fun cs => Component.f64 (beVal (rest.take 8)) :: cs)
      else none
    else if t = 3 then
      match parse_bytes rest with
      | none => none
      | some (rem, bs) =>
        (as_components_go fuel rem).map (fun cs => Component.bytes bs :: cs)
    else none

/-- Key.as_components: decode the storage back into components. -/
def as_components (storage : Bytes) : Option (List Component) :=
  as_components_go storage.length storage

/-- Sign bit of an f64 bit pattern. -/
def f64Sign (bits : Nat) : Nat := bits / 2 ^ 63

/-- Magnitude (exponent and mantissa) of an f64 bit pattern. -/
def f64Mag (bits : Nat) : Nat := bits % 2 ^ 63

/-- NaN test on the bit pattern: exponent all ones and nonzero mantissa. -/
def f64IsNaN (bits : Nat) : Bool := decide (0x7FF0000000000000 < f64Mag bits)

/-- Bit-level model of the f64 comparison used by impl Ord for Component:
partial_cmp followed by unwrap_or(Equal), so any NaN operand compares Equal;
positive and negative zero compare Equal; otherwise IEEE-754 sign/magnitude
order, which on bit patterns is magnitude order, reversed under a set sign
bit. -/
def f64Cmp (p q : Nat) : Ordering :=
  if f64IsNaN p || f64IsNaN q then .eq
  else if f64Mag p = 0 ∧ f64Mag q = 0 then .eq
  else if f64Sign p = 0 then
    if f64Sign q = 0 then compare (f64Mag p) (f64Mag q) else .gt
  else
    if f64Sign q = 0 then .lt else compare (f64Mag q) (f64Mag p)

/-- Bit-level model of f64 equality (Rust ==): false on any NaN operand,
true for positive vs negative zero, else bit equality. -/
def f64Eq (p q : Nat) : Bool :=
  !f64IsNaN p && !f64IsNaN q &&
    (decide (p = q) || (decide (f64Mag p = 0) && decide (f64Mag q = 0)))

/-- impl Ord for Component: same-kind comparison by value, different kinds by
type tag. -/
def componentCmp : Component → Component → Ordering
  | .i64 l, .i64 r => compare l r
  | .f64 l, .f64 r => f64Cmp l r
  | .bytes l, .bytes r => lexCompare l r
  | l, r => compare l.tyTag r.tyTag

/-- impl PartialEq for Component: same-kind equality (f64 via Rust ==),
different kinds never equal. -/
def componentEqb : Component → Component → Bool
  | .i64 l, .i64 r => decide (l = r)
  | .f64 l, .f64 r => f64Eq l r
  | .bytes l, .bytes r => decide (l = r)
  | _, _ => false

/-- Vec equality on component sequences: equal lengths and elementwise
componentEqb. -/
def componentsEqb : List Component → List Component → Bool
  | [], [] => true
  | a :: x, b :: y => componentEqb a b && componentsEqb x y
  | _, _ => false

/-- Derived Ord on Vec of Component: lexicographic, strict prefix smaller. -/
def componentsCmp : List Component → List Component → Ordering
  | [], [] => .eq
  | [], _ :: _ => .lt
  | _ :: _, [] => .gt
  | a :: x, b :: y => (componentCmp a b).then (componentsCmp x y)

/-- Range constraints of the Rust component types: i64 in two's-complement
range, f64 bit pattern below 2^64, payload bytes below 256. -/
def componentWF : Component → Prop
  | .i64 v => -(2 : Int) ^ 63 ≤ v ∧ v < 2 ^ 63
  | .f64 bits => bits < 2 ^ 64
  | .bytes v => ∀ b ∈ v, b < 256

instance : DecidablePred componentWF := by
  intro c
  cases c <;> simp only [componentWF] <;> infer_instance

/-- The restriction of the documented order-preservation limitation, plus
zero-free byte payloads: nonnegative i64, nonnegative non-NaN f64 (bit
pattern at most that of positive infinity), and payloads with all bytes in
1..=255. -/
def componentOrderOK : Component → Prop
  | .i64 v => 0 ≤ v ∧ v < 2 ^ 63
  | .f64 bits => bits ≤ 0x7FF0000000000000
  | .bytes v => ∀ b ∈ v, 0 < b ∧ b < 256

instance : DecidablePred componentOrderOK := by
  intro c
  cases c <;> simp only [componentOrderOK] <;> infer_instance

/-! ## Wire value codec (src/vdb_value) -/

/-- Errors of the vdb_value crate; fuelOut is a model artifact marking
exhaustion of the recursion bound (never reached with enough fuel), and
panicked models a Rust panic (default_for_ty on Any). -/
inductive VErr where
  | prematureEnd
  | invalidType
  | stringErr
  | panicked
  | fuelOut
deriving DecidableEq, Repr

/-- The wire type tags (Ty enum of vdb_value). -/
inductive VTy where
  | any
  | tI64
  | tF64
  | tBytes
  | tList
  | tStruct
  | stop
deriving DecidableEq, Repr

/-- ty_to_u8: the numeric tag values Any=0, I64=1, F64=2, Bytes=3, List=4,
Struct=5, Stop=255. -/
def ty_to_u8 : VTy → Nat
  | .any => 0
  | .tI64 => 1
  | .tF64 => 2
  | .tBytes => 3
  | .tList => 4
  | .tStruct => 5
  | .stop => 255

/-- try_u8_to_ty: any other octet is an invalid-type failure. -/
def try_u8_to_ty (b : Nat) : Except VErr VTy :=
  if b = 0 then .ok .any
  else if b = 1 then .ok .tI64
  else if b = 2 then .ok .tF64
  else if b = 3 then .ok .tBytes
  else if b = 4 then .ok .tList
  else if b = 5 then .ok .tStruct
  else if b = 255 then .ok .stop
  else .error .invalidType

/-- DynamicValue: the type-erased value tree.  A struct's BTreeMap from u8
index to value is modelled as an association list kept sorted by strictly
ascending index. -/
inductive DynamicValue where
  | i64 (v : Int)
  | f64 (bits : Nat)
  | bytes (v : Bytes)
  | strukt (fields : List (Nat × DynamicValue))
  | list (item_ty : VTy) (items : List DynamicValue)
  | stop

/-- DynamicValue.ty: the wire tag of a dynamic value. -/
def DynamicValue.wireTy : DynamicValue → VTy
  | .i64 _ => .tI64
  | .f64 _ => .tF64
  | .bytes _ => .tBytes
  | .strukt _ => .tStruct
  | .list _ _ => .tList
  | .stop => .stop

/-- BTreeMap.insert on the sorted association list: overwrite an existing
index, else insert keeping ascending order. -/
def btreeInsert (m : List (Nat × DynamicValue)) (k : Nat) (v : DynamicValue) :
    List (Nat × DynamicValue) :=
  match m with
  | [] => [(k, v)]
  | (k2, v2) :: rest =>
    if k < k2 then (k, v) :: (k2, v2) :: rest
    else if k = k2 then (k, v) :: rest
    else (k2, v2) :: btreeInsert rest k v

mutual

/-- DynamicValue.to_output: I64/F64 as 8 big-endian bytes, Bytes with a
4-byte big-endian length, List as item-type tag, 4-byte count and bodies,
Struct via its field sequence, Stop writes nothing. -/
def encodeValue : DynamicValue → Bytes
  | .i64 v => beBytes 8 (i64ToU64 v)
  | .f64 bits => beBytes 8 bits
  | .bytes v => beBytes 4 (v.length % 2 ^ 32) ++ v
  | .list ity items =>
    ty_to_u8 ity :: (beBytes 4 (items.length % 2 ^ 32) ++ encodeItems items)
  | .strukt fields => encodeFields fields ++ [255, 255]
  | .stop => []

/-- The consecutive encoded items of a list (no per-item tags). -/
def encodeItems : List DynamicValue → Bytes
  | [] => []
  | v :: rest => encodeValue v ++ encodeItems rest

/-- DynamicStruct.to_output without the terminator: per field a 2-byte
header (type tag, index) then the body, iterating the map in ascending index
order. -/
def encodeFields : List (Nat × DynamicValue) → Bytes
  | [] => []
  | (i, v) :: rest => ty_to_u8 v.wireTy :: i :: (encodeValue v ++ encodeFields rest)

end

/-- read_n_bytes / raw_read_bytes: take n bytes or fail with premature end. -/
def readN (n : Nat) (l : Bytes) : Option (Bytes × Bytes) :=
  if n ≤ l.length then some (l.take n, l.drop n) else none

mutual

/-- DynamicValue.from_input after default_for_ty on the given wire tag.
The fuel argument only bounds the recursion depth of the model; decoding an
encoded well-formed value never exhausts it.  default_for_ty(Any) panics in
the source; a Stop value reads nothing. -/
def decodeValue : Nat → VTy → Bytes → Except VErr (DynamicValue × Bytes)
  | 0, _, _ => .error .fuelOut
  | _ + 1, .tI64, input =>
    match readN 8 input with
    | none => .error .prematureEnd
    | some (buf, rest) => .ok (.i64 (u64ToI64 (beVal buf)), rest)
  | _ + 1, .tF64, input =>
    match readN 8 input with
    | none => .error .prematureEnd
    | some (buf, rest) => .ok (.f64 (beVal buf), rest)
  | _ + 1, .tBytes, input =>
    match readN 4 input with
    | none => .error .prematureEnd
    | some (szb, r1) =>
      match readN (beVal szb) r1 with
      | none => .error .prematureEnd
      | some (payload, r2) => .ok (.bytes payload, r2)
  | fuel + 1, .tList, input =>
    match input with
    | [] => .error .prematureEnd
    | tb :: r1 =>
      match try_u8_to_ty tb with
      | .error e => .error e
      | .ok ity =>
        match readN 4 r1 with
        | none => .error .prematureEnd
        | some (szb, r2) =>
          match decodeItems fuel ity (beVal szb) r2 with
          | .error e => .error e
          | .ok (items, r3) => .ok (.list ity items, r3)
  | fuel + 1, .tStruct, input =>
    match decodeFields fuel [] input with
    | .error e => .error e
    | .ok (fields, rest) => .ok (.strukt fields, rest)
  | _ + 1, .stop, input => .ok (.stop, input)
  | _ + 1, .any, _ => .error .panicked

/-- The item loop of list decoding: each item is default_for_ty(item_ty)
followed by from_input. -/
def decodeItems : Nat → VTy → Nat → Bytes → Except VErr (List DynamicValue × Bytes)
  | _, _, 0, input => .ok ([], input)
  | 0, _, _ + 1, _ => .error .fuelOut
  | fuel + 1, ity, n + 1, input =>
    match decodeValue fuel ity input with
    | .error e => .error e
    | .ok (v, r1) =>
      match decodeItems fuel ity n r1 with
      | .error e => .error e
      | .ok (vs, r2) => .ok (v :: vs, r2)

/-- DynamicStruct.from_input: read field headers until Stop, decoding each
field and inserting it into the map. -/
def decodeFields : Nat → List (Nat × DynamicValue) → Bytes →
    Except VErr (List (Nat × DynamicValue) × Bytes)
  | 0, _, _ => .error .fuelOut
  | fuel + 1, acc, input =>
    match readN 2 input with
    | none => .error .prematureEnd
    | some (hdr, rest) =>
      match hdr with
      | [tb, idx] =>
        match try_u8_to_ty tb with
        | .error e => .error e
        | .ok ty =>
          if ty = .stop then .ok (acc, rest)
          else
            match decodeValue fuel ty rest with
            | .error e => .error e
            | .ok (v, r2) => decodeFields fuel (btreeInsert acc idx v) r2
      | _ => .error .prematureEnd

end

/-- DynamicStruct.to_vec: the fields in ascending index order followed by the
stop header FF FF. -/
def structToVec (fields : List (Nat × DynamicValue)) : Bytes :=
  encodeValue (.strukt fields)

/-- DynamicStruct.from_slice: decode the field map from the byte string.
The fuel is one more than the byte length, which always suffices since every
decoding step past the first consumes input. -/
def dynamicStructFromSlice (input : Bytes) :
    Except VErr (List (Nat × DynamicValue)) :=
  match decodeFields (input.length + 1) [] input with
  | .error e => .error e
  | .ok (fields, _) => .ok fields

mutual

/-- Well-formed dynamic values: the scope of the round-trip property.  No
Stop values; i64/u8/u32 ranges respected; list items all carry the list's
item type, Any only for empty lists; struct field indices strictly ascending
bytes. -/
def wfValue : DynamicValue → Bool
  | .i64 v => decide (-(2 : Int) ^ 63 ≤ v ∧ v < 2 ^ 63)
  | .f64 bits => decide (bits < 2 ^ 64)
  | .bytes v => decide (v.length < 2 ^ 32) && v.all (fun b => decide (b < 256))
  | .list ity items =>
    decide (items.length < 2 ^ 32) &&
      (decide (ity ≠ .any) || items.isEmpty) && wfItems ity items
  | .strukt fields => wfFields fields
  | .stop => false

/-- Every list item is well formed and has the list's item type. -/
def wfItems : VTy → List DynamicValue → Bool
  | _, [] => true
  | ity, v :: rest => decide (v.wireTy = ity) && wfValue v && wfItems ity rest

/-- Struct fields: strictly ascending u8 indices with well-formed values. -/
def wfFields : List (Nat × DynamicValue) → Bool
  | [] => true
  | (i, v) :: rest =>
    decide (i < 256) && wfValue v && wfFieldsFrom i rest

/-- Tail of the field list, with all indices above the bound. -/
def wfFieldsFrom : Nat → List (Nat × DynamicValue) → Bool
  | _, [] => true
  | bound, (i, v) :: rest =>
    decide (bound < i) && decide (i < 256) && wfValue v && wfFieldsFrom i rest

end

mutual

/-- Tree depth of a dynamic value (leaves have depth 1). -/
def depthValue : DynamicValue → Nat
  | .i64 _ => 1
  | .f64 _ => 1
  | .bytes _ => 1
  | .stop => 1
  | .list _ items => 1 + depthItems items
  | .strukt fields => 1 + depthFieldVals fields

/-- Maximum depth across list items. -/
def depthItems : List DynamicValue → Nat
  | [] => 0
  | v :: rest => max (depthValue v) (depthItems rest)

/-- Maximum depth across struct field values. -/
def depthFieldVals : List (Nat × DynamicValue) → Nat
  | [] => 0
  | (_, v) :: rest => max (depthValue v) (depthFieldVals rest)

end

mutual

/-- Fuel needed by the model decoder on the encoding of a value. -/
def sizeValue : DynamicValue → Nat
  | .i64 _ => 1
  | .f64 _ => 1
  | .bytes _ => 1
  | .stop => 1
  | .list _ items => 1 + sizeItems items
  | .strukt fields => 1 + sizeFields fields

/-- Fuel needed by the item loop. -/
def sizeItems : List DynamicValue → Nat
  | [] => 0
  | v :: rest => 1 + max (sizeValue v) (sizeItems rest)

/-- Fuel needed by the field loop, including the terminating stop header. -/
def sizeFields : List (Nat × DynamicValue) → Nat
  | [] => 1
  | (_, v) :: rest => 1 + max (sizeValue v) (sizeFields rest)

end

/-! ## Table and index engine (src/vdb_table)

The substrate data table T_data(rowid AUTOINCREMENT, key, is_deleted,
is_latest, value) is a list of rows kept in insertion order, which for an
autoincrement table is also ascending rowid order, together with the next
rowid.  The value column is never NULL: both INSERT statements of the engine
supply a concrete value (tombstones write the empty string).  The partial
unique index on (key, is_latest) WHERE is_latest = 1 makes an INSERT fail
when another is_latest row with the same key exists. -/

/-- Errors of the vdb_table crate. -/
inductive TErr where
  | sqlite
  | valueErr
  | keyErr
  | indexMissing
deriving DecidableEq, Repr

/-- One physical row of the data table. -/
structure Row where
  rowid : Int
  key : Bytes
  is_deleted : Bool
  is_latest : Bool
  value : Bytes
deriving DecidableEq, Repr

/-- The data table: append-only row log plus the autoincrement counter. -/
structure TableState where
  rows : List Row
  next_rowid : Int
deriving DecidableEq, Repr

/-- State right after create_table: no rows, autoincrement starts at 1. -/
def initTable : TableState := { rows := [], next_rowid := 1 }

/-- UPDATE data SET is_latest = 0 WHERE key = k AND is_latest = 1.
Returns the new state and whether any row was modified. -/
def update_last_to_not_latest (s : TableState) (k : Bytes) : TableState × Bool :=
  let hit := s.rows.any fun r => decide (r.key = k) && r.is_latest
  ({ s with rows := s.rows.map fun r =>
      if r.key = k ∧ r.is_latest then { r with is_latest := false } else r },
   hit)

/-- UPDATE data SET is_latest = 0 WHERE rowid = v AND key = k AND
is_latest = 1. -/
def update_last_to_not_latest_with_version (s : TableState) (k : Bytes) (v : Int) :
    TableState × Bool :=
  let hit := s.rows.any fun r =>
    decide (r.rowid = v) && decide (r.key = k) && r.is_latest
  ({ s with rows := s.rows.map fun r =>
      if r.rowid = v ∧ r.key = k ∧ r.is_latest then { r with is_latest := false } else r },
   hit)

/-- Table.get: SELECT value, rowid WHERE key = k AND is_latest = 1 AND
is_deleted <> 1 (at most one row under the latest-uniqueness invariant). -/
def tableGet (s : TableState) (k : Bytes) : Option (Bytes × Int) :=
  (s.rows.find? fun r => decide (r.key = k) && r.is_latest && !r.is_deleted).map
    fun r => (r.value, r.rowid)

/-- Table.get_by_version: SELECT value WHERE key = k AND rowid = v AND
is_deleted <> 1. -/
def get_by_version (s : TableState) (k : Bytes) (v : Int) : Option Bytes :=
  (s.rows.find? fun r =>
      decide (r.key = k) && decide (r.rowid = v) && !r.is_deleted).map
    fun r => r.value

/-- INSERT INTO data (key, is_latest, is_deleted, value) VALUES
(k, 1, deleted, val): rejected by the partial unique index when another
is_latest row with the same key exists; otherwise appends the row and
returns last_insert_rowid. -/
def insert_row (s : TableState) (k : Bytes) (deleted : Bool) (val : Bytes) :
    Except TErr (TableState × Int) :=
  if s.rows.any fun r => decide (r.key = k) && r.is_latest then .error .sqlite
  else
    .ok ({ rows := s.rows ++ [⟨s.next_rowid, k, deleted, true, val⟩],
           next_rowid := s.next_rowid + 1 },
         s.next_rowid)

/-- One secondary index: the (ik, pk) rows of T_idx_N_data and the value of
the config row key = 1 (the watermark), none before it is first written. -/
structure IndexState where
  data : List (Bytes × Bytes)
  watermark : Option Int
deriving DecidableEq, Repr

/-- Index tables right after create_table. -/
def initIndex : IndexState := { data := [], watermark := none }

/-- An extractor: pure function from (pk bytes, value bytes) to index keys. -/
abbrev Extractor := Bytes → Bytes → Except TErr (List Bytes)

/-- Index.inner_get_prev_keys: SELECT ik WHERE pk = :pk. -/
def inner_get_prev_keys (idx : IndexState) (pk : Bytes) : List Bytes :=
  (idx.data.filter fun r => decide (r.2 = pk)).map fun r => r.1

/-- Index.inner_delete_iks: for each listed ik, DELETE FROM data WHERE
ik = :ik.  Note the statement has no pk condition, so it removes matching
rows of every primary key. -/
def inner_delete_iks (idx : IndexState) (iks : List Bytes) : IndexState :=
  { idx with
    data := iks.foldl (fun d ik => d.filter fun r => !decide (r.1 = ik)) idx.data }

/-- Index.inner_insert_iks: INSERT INTO data (ik, pk) per key; the primary
key (ik, pk) rejects duplicates. -/
def inner_insert_iks (idx : IndexState) : List Bytes → Bytes → Except TErr IndexState
  | [], _ => .ok idx
  | ik :: rest, pk =>
    if (ik, pk) ∈ idx.data then .error .sqlite
    else inner_insert_iks { idx with data := idx.data ++ [(ik, pk)] } rest pk

/-- Index.inner_save_version: INSERT OR REPLACE INTO config (key, value)
VALUES (1, version) - the stored watermark becomes exactly the given
version. -/
def inner_save_version (idx : IndexState) (version : Int) : IndexState :=
  { idx with watermark := some version }

/-- Index.update on an upsert (pk, value, version): diff the extractor
output against the stored keys for this pk, delete, insert, then save the
version. -/
def indexUpdate (ex : Extractor) (idx : IndexState) (pk value : Bytes)
    (version : Int) : Except TErr IndexState :=
  let prev := inner_get_prev_keys idx pk
  match ex pk value with
  | .error e => .error e
  | .ok news =>
    let keys_to_insert := news.filter fun ik => !decide (ik ∈ prev)
    let keys_to_delete := prev.filter fun ik => !decide (ik ∈ news)
    let idx1 := inner_delete_iks idx keys_to_delete
    match inner_insert_iks idx1 keys_to_insert pk with
    | .error e => .error e
    | .ok idx2 => .ok (inner_save_version idx2 version)

/-- Index.delete_by_pk: DELETE FROM data WHERE pk = :pk.  The watermark is
not touched on this path. -/
def delete_by_pk (idx : IndexState) (pk : Bytes) : IndexState :=
  { idx with data := idx.data.filter fun r => !decide (r.2 = pk) }

/-- TableUpdate: the batch form handed to Index.table_update. -/
inductive TableUpdateOp where
  | upsert (items : List (Bytes × Bytes × Int))
  | del (keys : List (Bytes × Int))

/-- Index.table_update: apply upserts via Index.update and deletes via
delete_by_pk. -/
def table_update (ex : Extractor) (idx : IndexState) :
    List TableUpdateOp → Except TErr IndexState
  | [] => .ok idx
  | .upsert items :: rest =>
    match items.foldlM (fun i (kv : Bytes × Bytes × Int) =>
        indexUpdate ex i kv.1 kv.2.1 kv.2.2) idx with
    | .error e => .error e
    | .ok idx2 => table_update ex idx2 rest
  | .del keys :: rest =>
    table_update ex (keys.foldl (fun i (kv : Bytes × Int) => delete_by_pk i kv.1) idx) rest

/-- The database state seen by one table with one attached index. -/
structure DB where
  table : TableState
  idx : IndexState
deriving DecidableEq, Repr

/-- State after create_table on a fresh database. -/
def initDB : DB := ⟨initTable, initIndex⟩

/-- Table.inner_insert: read the current latest (get skips tombstones), clear
its is_latest if present, insert the new row, then update every index with
the upsert. -/
def inner_insert (ex : Extractor) (s : DB) (k v : Bytes) :
    Except TErr (DB × Int) :=
  let t1 := match tableGet s.table k with
    | some _ => (update_last_to_not_latest s.table k).1
    | none => s.table
  match insert_row t1 k false v with
  | .error e => .error e
  | .ok (t2, ver) =>
    match table_update ex s.idx [.upsert [(k, v, ver)]] with
    | .error e => .error e
    | .ok idx2 => .ok (⟨t2, idx2⟩, ver)

/-- Table.insert: inner_insert inside a transaction; on error the
transaction rolls back and the state is unchanged. -/
def tableInsert (ex : Extractor) (s : DB) (k v : Bytes) : Except TErr Int × DB :=
  match inner_insert ex s k v with
  | .ok (s2, ver) => (.ok ver, s2)
  | .error e => (.error e, s)

/-- The loop of Table.insert_batch inside its transaction. -/
def inner_insert_batch (ex : Extractor) : DB → List (Bytes × Bytes) →
    Except TErr DB
  | s, [] => .ok s
  | s, (k, v) :: rest =>
    match inner_insert ex s k v with
    | .error e => .error e
    | .ok (s2, _) => inner_insert_batch ex s2 rest

/-- Table.insert_batch: all inserts in one transaction, rolled back together
on error. -/
def tableInsertBatch (ex : Extractor) (s : DB) (kvs : List (Bytes × Bytes)) :
    Except TErr Unit × DB :=
  match inner_insert_batch ex s kvs with
  | .ok s2 => (.ok (), s2)
  | .error e => (.error e, s)

/-- Table.delete: clear the latest row for the key; if none was modified
return 0 without state change, else append an is_latest = 1, is_deleted = 1
tombstone with empty value and return its rowid.  No index is updated on
this path. -/
def tableDelete (s : DB) (k : Bytes) : Except TErr Int × DB :=
  let (t1, modified) := update_last_to_not_latest s.table k
  if modified then
    match insert_row t1 k true [] with
    | .ok (t2, ver) => (.ok ver, ⟨t2, s.idx⟩)
    | .error e => (.error e, s)
  else (.ok 0, s)

/-- Table.delete_with_version: read the row at the expected version, clear
is_latest only when the latest row for the key has exactly that rowid;
otherwise return 0 leaving the state unchanged; on success append a
tombstone and return its rowid.  No index is updated on this path either. -/
def delete_with_version (s : DB) (k : Bytes) (version : Int) :
    Except TErr Int × DB :=
  let _last_value := get_by_version s.table k version
  let (t1, modified) := update_last_to_not_latest_with_version s.table k version
  if modified then
    match insert_row t1 k true [] with
    | .ok (t2, ver) => (.ok ver, ⟨t2, s.idx⟩)
    | .error e => (.error e, s)
  else (.ok 0, s)

/-- UpdateResult returned by an update callback. -/
inductive UpdateResult where
  | notChange
  | updateVal (v : Bytes)
  | del

/-- Table.update: read the latest, ask the callback, then dispatch to
delete_with_version (with the previous version, 0 when absent) or insert. -/
def tableUpdateByF (ex : Extractor) (s : DB) (k : Bytes)
    (f : Option (Bytes × Int) → Except TErr UpdateResult) :
    Except TErr (Option Int) × DB :=
  let prev := tableGet s.table k
  let prev_v := (prev.map fun x => x.2).getD 0
  match f prev with
  | .error e => (.error e, s)
  | .ok .notChange => (.ok none, s)
  | .ok .del =>
    match delete_with_version s k prev_v with
    | (.ok v, s2) => (.ok (some v), s2)
    | (.error e, s2) => (.error e, s2)
  | .ok (.updateVal nv) =>
    match tableInsert ex s k nv with
    | (.ok v, s2) => (.ok (some v), s2)
    | (.error e, s2) => (.error e, s2)

/-- Table.scan_to_end: the (key, value, rowid) triples passed to the
callback, one per latest row with rowid above from_version in ascending
rowid order.  The model's row log is already in ascending rowid order, so
ORDER BY rowid keeps the filter order.  rusqlite reads the value column as
an Option that is none only for NULL; the engine never writes NULL (the
tombstone INSERT writes the empty string), so every triple carries some
value. -/
def scan_to_end (s : TableState) (from_version : Int) :
    List (Bytes × Option Bytes × Int) :=
  (s.rows.filter fun r => decide (from_version < r.rowid) && r.is_latest).map
    fun r => (r.key, some r.value, r.rowid)

/-- The index refresh loop of Table.create_table: replay the scan from the
watermark (0 when absent), applying a delete when the value is none and an
upsert otherwise. -/
def catch_up (ex : Extractor) (tbl : TableState) (idx : IndexState) :
    Except TErr IndexState :=
  (scan_to_end tbl (idx.watermark.getD 0)).foldlM
    (fun i kv =>
      match kv with
      | (k, none, ver) => table_update ex i [.del [(k, ver)]]
      | (k, some v, ver) => table_update ex i [.upsert [(k, v, ver)]])
    idx

/-- One byte-level table operation, for quantifying over operation
sequences. -/
inductive Op where
  | ins (k v : Bytes)
  | insBatch (kvs : List (Bytes × Bytes))
  | del (k : Bytes)
  | delWithVersion (k : Bytes) (v : Int)
  | upd (k : Bytes) (f : Option (Bytes × Int) → Except TErr UpdateResult)

/-- Apply one operation, keeping the post-transaction state (failed
transactions leave the state unchanged). -/
def applyOp (ex : Extractor) (s : DB) : Op → DB
  | .ins k v => (tableInsert ex s k v).2
  | .insBatch kvs => (tableInsertBatch ex s kvs).2
  | .del k => (tableDelete s k).2
  | .delWithVersion k v => (delete_with_version s k v).2
  | .upd k f => (tableUpdateByF ex s k f).2

/-- Run an operation sequence from the freshly created table. -/
def runOps (ex : Extractor) (ops : List Op) : DB :=
  ops.foldl (applyOp ex) initDB

/-- Number of physical rows for a key that carry is_latest = 1. -/
def latestCount (s : TableState) (k : Bytes) : Nat :=
  s.rows.countP fun r => decide (r.key = k) && r.is_latest

/-- The set of (ik, pk) pairs required by the index-consistency invariant:
for every logically present primary key, the extractor output on its latest
value. -/
def index_spec_pairs (ex : Extractor) (s : DB) : List (Bytes × Bytes) :=
  (s.table.rows.filter fun r => r.is_latest && !r.is_deleted).flatMap fun r =>
    match ex r.key r.value with
    | .ok iks => iks.map fun ik => (ik, r.key)
    | .error _ => []

/-- A byte string that does not start with 0x00 (every live component tag
is 1..3, so the encoding of a component sequence qualifies). -/
def headNonzero : Bytes → Prop
  | [] => True
  | b :: _ => b ≠ 0

instance : DecidablePred headNonzero := by
  intro l
  cases l <;> simp only [headNonzero] <;> infer_instance

/-- No-NaN condition on a component (only f64 components can be NaN). -/
def componentNotNaN : Component → Prop
  | .f64 bits => f64IsNaN bits = false
  | _ => True

instance : DecidablePred componentNotNaN := by
  intro c
  cases c <;> simp only [componentNotNaN] <;> infer_instance

/-- Extractor returning no index keys. -/
def exNone : Extractor := fun _ _ => .ok []

/-- Extractor returning the constant index key [7] for every row. -/
def exConst : Extractor := fun _ _ => .ok [[7]]

/-- Extractor returning index key [7] exactly when the value is [0]. -/
def exVal : Extractor := fun _ v => if v = [0] then .ok [[7]] else .ok []

/-- The latest-uniqueness invariant of the data table. -/
def latestInv (t : TableState) : Prop := ∀ k : Bytes, latestCount t k ≤ 1

/-! ## Helper lemmas: orderings and big-endian bytes -/

theorem ordering_then_assoc (a b c : Ordering) :
    (a.then b).then c = a.then (b.then c) := by
  cases a <;> rfl

theorem compare_div_mod (d m n : Nat) :
    (compare (m / d) (n / d)).then (compare (m % d) (n % d)) = compare m n := by
  rcases Nat.lt_trichotomy m n with h | h | h
  · rcases Nat.lt_or_ge (m / d) (n / d) with h2 | h2
    · rw [Nat.compare_eq_lt.mpr h2, Nat.compare_eq_lt.mpr h]; rfl
    · have h3 : m / d = n / d := le_antisymm (Nat.div_le_div_right h.le) h2
      have h4 : m % d < n % d := by
        have hm := Nat.div_add_mod m d
        have hn := Nat.div_add_mod n d
        have h5 : d * (m / d) = d * (n / d) := by rw [h3]
        omega
      rw [h3, Nat.compare_eq_eq.mpr rfl, Nat.compare_eq_lt.mpr h4,
        Nat.compare_eq_lt.mpr h]; rfl
  · subst h
    rw [Nat.compare_eq_eq.mpr rfl, Nat.compare_eq_eq.mpr rfl,
      Nat.compare_eq_eq.mpr rfl]; rfl
  · rcases Nat.lt_or_ge (n / d) (m / d) with h2 | h2
    · rw [Nat.compare_eq_gt.mpr h2, Nat.compare_eq_gt.mpr h]; rfl
    · have h3 : m / d = n / d := le_antisymm h2 (Nat.div_le_div_right h.le)
      have h4 : n % d < m % d := by
        have hm := Nat.div_add_mod m d
        have hn := Nat.div_add_mod n d
        have h5 : d * (m / d) = d * (n / d) := by rw [h3]
        omega
      rw [h3, Nat.compare_eq_eq.mpr rfl, Nat.compare_eq_gt.mpr h4,
        Nat.compare_eq_gt.mpr h]; rfl

theorem beBytes_length (w n : Nat) : (beBytes w n).length = w := by
  induction w generalizing n with
  | zero => rfl
  | succ w ih => simp [beBytes, ih]

theorem lexCompare_beBytes (w m n : Nat) (s t : Bytes)
    (hm : m < 256 ^ w) (hn : n < 256 ^ w) :
    lexCompare (beBytes w m ++ s) (beBytes w n ++ t) =
      (compare m n).then (lexCompare s t) := by
  induction w generalizing m n with
  | zero =>
    have hm0 : m = 0 := by omega
    have hn0 : n = 0 := by omega
    subst hm0; subst hn0
    simp [beBytes, Nat.compare_eq_eq.mpr rfl]
    rfl
  | succ w ih =>
    have hmod : m % 256 ^ w < 256 ^ w := Nat.mod_lt _ (Nat.pos_pow_of_pos _ (by omega))
    have hnod : n % 256 ^ w < 256 ^ w := Nat.mod_lt _ (Nat.pos_pow_of_pos _ (by omega))
    calc lexCompare (beBytes (w + 1) m ++ s) (beBytes (w + 1) n ++ t)
        = (compare (m / 256 ^ w) (n / 256 ^ w)).then
            (lexCompare (beBytes w (m % 256 ^ w) ++ s) (beBytes w (n % 256 ^ w) ++ t)) := rfl
      _ = (compare (m / 256 ^ w) (n / 256 ^ w)).then
            ((compare (m % 256 ^ w) (n % 256 ^ w)).then (lexCompare s t)) := by
            rw [ih _ _ hmod hnod]
      _ = ((compare (m / 256 ^ w) (n / 256 ^ w)).then
            (compare (m % 256 ^ w) (n % 256 ^ w))).then (lexCompare s t) := by
            rw [ordering_then_assoc]
      _ = (compare m n).then (lexCompare s t) := by rw [compare_div_mod]

theorem beVal_beBytes (w n : Nat) (h : n < 256 ^ w) :
    beVal (beBytes w n) = n := by
  induction w generalizing n with
  | zero => simp [beBytes, beVal]; omega
  | succ w ih =>
    have hmod : n % 256 ^ w < 256 ^ w := Nat.mod_lt _ (Nat.pos_pow_of_pos _ (by omega))
    simp [beBytes, beVal, beBytes_length, ih _ hmod]
    have h1 := Nat.div_add_mod n (256 ^ w)
    have h2 : n / 256 ^ w * 256 ^ w = 256 ^ w * (n / 256 ^ w) := Nat.mul_comm ..
    omega

theorem i64ToU64_lt (v : Int) : i64ToU64 v < 2 ^ 64 := by
  unfold i64ToU64
  have h1 : 0 ≤ v % (2 : Int) ^ 64 := Int.emod_nonneg v (by norm_num)
  have h2 : v % (2 : Int) ^ 64 < (2 : Int) ^ 64 := Int.emod_lt_of_pos v (by norm_num)
  omega

theorem i64ToU64_of_nonneg (v : Int) (h0 : 0 ≤ v) (h1 : v < 2 ^ 63) :
    i64ToU64 v = v.toNat := by
  unfold i64ToU64
  have : v % (2 : Int) ^ 64 = v := Int.emod_eq_of_lt h0 (by omega)
  rw [this]

theorem u64ToI64_i64ToU64 (v : Int) (h0 : -(2 : Int) ^ 63 ≤ v) (h1 : v < 2 ^ 63) :
    u64ToI64 (i64ToU64 v) = v := by
  unfold u64ToI64 i64ToU64
  have hm : 0 ≤ v % (2 : Int) ^ 64 := Int.emod_nonneg v (by norm_num)
  have hm2 : v % (2 : Int) ^ 64 < 2 ^ 64 := Int.emod_lt_of_pos v (by norm_num)
  rcases le_or_lt 0 v with hv | hv
  · have he : v % (2 : Int) ^ 64 = v := Int.emod_eq_of_lt hv (by omega)
    split <;> omega
  · have he : v % (2 : Int) ^ 64 = v + 2 ^ 64 := by omega
    split <;> omega

theorem compare_toNat_of_nonneg (a b : Int) (ha : 0 ≤ a) (hb : 0 ≤ b) :
    compare a.toNat b.toNat = compare a b := by
  rcases lt_trichotomy a b with h | h | h
  · rw [compare_lt_iff_lt.mpr h, Nat.compare_eq_lt.mpr (by omega)]
  · subst h
    rw [Nat.compare_eq_eq.mpr rfl, compare_eq_iff_eq.mpr rfl]
  · rw [compare_gt_iff_gt.mpr h, Nat.compare_eq_gt.mpr (by omega)]

/-! ## Key codec lemmas -/

theorem escape_bytes_zero_free (x : Bytes) (hx : ∀ b ∈ x, b ≠ 0) :
    escape_bytes x = x ++ [0] := by
  induction x with
  | nil => rfl
  | cons b rest ih =>
    have hb : b ≠ 0 := hx b (by simp)
    simp [escape_bytes, hb, ih fun c hc => hx c (by simp [hc])]

theorem lexCompare_zero_term (x : Bytes) (s t : Bytes) :
    ∀ y : Bytes, (∀ b ∈ x, b ≠ 0) → (∀ b ∈ y, b ≠ 0) →
      lexCompare (x ++ 0 :: s) (y ++ 0 :: t) =
        (lexCompare x y).then (lexCompare s t) := by
  induction x with
  | nil =>
    intro y hx hy
    cases y with
    | nil => rfl
    | cons b y2 =>
      have hb : b ≠ 0 := hy b (by simp)
      show (compare 0 b).then _ = Ordering.lt.then _
      rw [Nat.compare_eq_lt.mpr (by omega)]
      rfl
  | cons a x2 ih =>
    intro y hx hy
    cases y with
    | nil =>
      have ha : a ≠ 0 := hx a (by simp)
      show (compare a 0).then _ = Ordering.gt.then _
      rw [Nat.compare_eq_gt.mpr (by omega)]
      rfl
    | cons b y2 =>
      show (compare a b).then (lexCompare (x2 ++ 0 :: s) (y2 ++ 0 :: t)) =
        ((compare a b).then (lexCompare x2 y2)).then (lexCompare s t)
      rw [ih y2 (fun c hc => hx c (by simp [hc])) (fun c hc => hy c (by simp [hc])),
        ordering_then_assoc]

theorem f64Cmp_nonneg (p q : Nat) (hp : p ≤ 0x7FF0000000000000)
    (hq : q ≤ 0x7FF0000000000000) : f64Cmp p q = compare p q := by
  have hps : f64Sign p = 0 := by unfold f64Sign; omega
  have hqs : f64Sign q = 0 := by unfold f64Sign; omega
  have hpm : f64Mag p = p := by unfold f64Mag; omega
  have hqm : f64Mag q = q := by unfold f64Mag; omega
  have hpn : f64IsNaN p = false := by unfold f64IsNaN; rw [hpm]; simp; omega
  have hqn : f64IsNaN q = false := by unfold f64IsNaN; rw [hqm]; simp; omega
  unfold f64Cmp
  rw [hpn, hqn, hps, hqs, hpm, hqm]
  simp only [Bool.or_false, Bool.false_eq_true, if_false, if_true]
  by_cases hz : p = 0 ∧ q = 0
  · simp [hz.1, hz.2, Nat.compare_eq_eq.mpr rfl]
  · simp [hz]

theorem append_component_eq (s : Bytes) (c : Component) :
    append_component s c = s ++ encodeComponent c := by
  cases c <;> simp [append_component, encodeComponent, append_i64, append_f64,
    append_bytes]

theorem keyFromComponents_eq (cs : List Component) :
    keyFromComponents cs = encodeComponents cs := by
  suffices h : ∀ s : Bytes, cs.foldl append_component s = s ++ encodeComponents cs by
    simpa using h []
  induction cs with
  | nil => intro s; simp [encodeComponents]
  | cons c rest ih =>
    intro s
    simp only [List.foldl_cons, encodeComponents, ih, append_component_eq,
      List.append_assoc]

theorem lexCompare_encodeComponent (c d : Component) (s t : Bytes)
    (hc : componentOrderOK c) (hd : componentOrderOK d) :
    lexCompare (encodeComponent c ++ s) (encodeComponent d ++ t) =
      (componentCmp c d).then (lexCompare s t) := by
  cases c with
  | i64 v =>
    cases d with
    | i64 w =>
      obtain ⟨hv0, hv1⟩ := hc
      obtain ⟨hw0, hw1⟩ := hd
      show (compare 1 1).then
        (lexCompare (beBytes 8 (i64ToU64 v) ++ s) (beBytes 8 (i64ToU64 w) ++ t)) = _
      rw [Nat.compare_eq_eq.mpr rfl,
        lexCompare_beBytes 8 _ _ s t (by have := i64ToU64_lt v; norm_num at *; omega)
          (by have := i64ToU64_lt w; norm_num at *; omega),
        i64ToU64_of_nonneg v hv0 hv1, i64ToU64_of_nonneg w hw0 hw1,
        compare_toNat_of_nonneg v w hv0 hw0]
      rfl
    | f64 qb =>
      show (compare 1 2).then _ = (compare 1 2).then _
      rw [Nat.compare_eq_lt.mpr (by omega)]; rfl
    | bytes w =>
      show (compare 1 3).then _ = (compare 1 3).then _
      rw [Nat.compare_eq_lt.mpr (by omega)]; rfl
  | f64 pb =>
    cases d with
    | i64 w =>
      show (compare 2 1).then _ = (compare 2 1).then _
      rw [Nat.compare_eq_gt.mpr (by omega)]; rfl
    | f64 qb =>
      have hc2 : pb ≤ 0x7FF0000000000000 := hc
      have hd2 : qb ≤ 0x7FF0000000000000 := hd
      show (compare 2 2).then
        (lexCompare (beBytes 8 pb ++ s) (beBytes 8 qb ++ t)) = _
      rw [Nat.compare_eq_eq.mpr rfl,
        lexCompare_beBytes 8 _ _ s t (by norm_num; omega) (by norm_num; omega)]
      show _ = (f64Cmp pb qb).then _
      rw [f64Cmp_nonneg pb qb hc2 hd2]
      rfl
    | bytes w =>
      show (compare 2 3).then _ = (compare 2 3).then _
      rw [Nat.compare_eq_lt.mpr (by omega)]; rfl
  | bytes v =>
    cases d with
    | i64 w =>
      show (compare 3 1).then _ = (compare 3 1).then _
      rw [Nat.compare_eq_gt.mpr (by omega)]; rfl
    | f64 qb =>
      show (compare 3 2).then _ = (compare 3 2).then _
      rw [Nat.compare_eq_gt.mpr (by omega)]; rfl
    | bytes w =>
      have hv : ∀ b ∈ v, b ≠ 0 := fun b hb => by have := hc b hb; omega
      have hw : ∀ b ∈ w, b ≠ 0 := fun b hb => by have := hd b hb; omega
      show (compare 3 3).then
        (lexCompare (escape_bytes v ++ s) (escape_bytes w ++ t)) = _
      rw [Nat.compare_eq_eq.mpr rfl, escape_bytes_zero_free v hv,
        escape_bytes_zero_free w hw]
      have hvs : v ++ [0] ++ s = v ++ 0 :: s := by simp
      have hws : w ++ [0] ++ t = w ++ 0 :: t := by simp
      rw [hvs, hws, lexCompare_zero_term v s t w hv hw]
      rfl

theorem encodeComponent_cons (c : Component) :
    ∃ a u, encodeComponent c = a :: u := by
  cases c <;> exact ⟨_, _, rfl⟩

theorem lexCompare_encodeComponents (l r : List Component)
    (hl : ∀ c ∈ l, componentOrderOK c) (hr : ∀ c ∈ r, componentOrderOK c) :
    lexCompare (encodeComponents l) (encodeComponents r) = componentsCmp l r := by
  induction l generalizing r with
  | nil =>
    cases r with
    | nil => rfl
    | cons d r2 =>
      obtain ⟨a, u, he⟩ := encodeComponent_cons d
      show lexCompare [] (encodeComponent d ++ encodeComponents r2) = .lt
      rw [he]
      rfl
  | cons c l2 ih =>
    cases r with
    | nil =>
      obtain ⟨a, u, he⟩ := encodeComponent_cons c
      show lexCompare (encodeComponent c ++ encodeComponents l2) [] = .gt
      rw [he]
      rfl
    | cons d r2 =>
      show lexCompare (encodeComponent c ++ encodeComponents l2)
          (encodeComponent d ++ encodeComponents r2) =
        (componentCmp c d).then (componentsCmp l2 r2)
      rw [lexCompare_encodeComponent c d _ _ (hl c (by simp)) (hr d (by simp)),
        ih r2 (fun x hx => hl x (by simp [hx])) (fun x hx => hr x (by simp [hx]))]

/-- C6 counterexample input: l = [Bytes [0x00]] and r = [Bytes [], I64 0]
both draw from the claim's alphabet, are within length 3, and contain no
negative integer and no signed/NaN float, yet byte order and componentwise
order disagree: the doubled 0x00 of the payload compares below the type tag
of r's second component while componentwise Bytes [0x00] exceeds the prefix
Bytes []. -/
theorem claim_C6_counterexample :
    lexCompare (keyFromComponents [Component.bytes [0]])
        (keyFromComponents [Component.bytes [], Component.i64 0]) = Ordering.lt ∧
      componentsCmp [Component.bytes [0]]
        [Component.bytes [], Component.i64 0] = Ordering.gt := by
  constructor <;> rfl

/-- C6 (amended): for component sequences of length at most 3 whose
components are nonnegative i64, nonnegative non-NaN f64, and byte payloads
free of 0x00, the unsigned lexicographic comparison of the encodings equals
the componentwise comparison (missing component first, distinct types by
tag). -/
theorem claim_C6_amended (l r : List Component)
    (hl : ∀ c ∈ l, componentOrderOK c) (hr : ∀ c ∈ r, componentOrderOK c)
    (_hll : l.length ≤ 3) (_hrl : r.length ≤ 3) :
    lexCompare (keyFromComponents l) (keyFromComponents r) = componentsCmp l r := by
  rw [keyFromComponents_eq, keyFromComponents_eq]
  exact lexCompare_encodeComponents l r hl hr

/-- Witness for C6: concrete sequences satisfying all hypotheses, with the
conclusion computed. -/
theorem claim_C6_witness :
    (∀ c ∈ [Component.i64 567, Component.bytes [104, 105]], componentOrderOK c) ∧
      lexCompare (keyFromComponents [Component.i64 567, Component.bytes [104, 105]])
        (keyFromComponents [Component.i64 567, Component.bytes [105]]) =
        componentsCmp [Component.i64 567, Component.bytes [104, 105]]
          [Component.i64 567, Component.bytes [105]] :=
  ⟨by decide, claim_C6_amended _ _ (by decide) (by decide) (by decide) (by decide)⟩

theorem parse_bytes_go_escape (v : Bytes) :
    ∀ (acc rest : Bytes), headNonzero rest →
      parse_bytes_go false acc (escape_bytes v ++ rest) = some (rest, acc ++ v) := by
  induction v with
  | nil =>
    intro acc rest h
    cases rest with
    | nil => simp [escape_bytes, parse_bytes_go]
    | cons b rs =>
      have hb : b ≠ 0 := h
      simp [escape_bytes, parse_bytes_go, hb]
  | cons b v2 ih =>
    intro acc rest h
    by_cases hb : b = 0
    · subst hb
      have he : escape_bytes (0 :: v2) ++ rest = 0 :: 0 :: (escape_bytes v2 ++ rest) := by
        simp [escape_bytes]
      rw [he]
      show parse_bytes_go true acc (0 :: (escape_bytes v2 ++ rest)) = _
      show parse_bytes_go false (acc ++ [0]) (escape_bytes v2 ++ rest) = _
      rw [ih (acc ++ [0]) rest h]
      simp
    · have he : escape_bytes (b :: v2) ++ rest = b :: (escape_bytes v2 ++ rest) := by
        simp [escape_bytes, hb]
      rw [he]
      have hs : parse_bytes_go false acc (b :: (escape_bytes v2 ++ rest)) =
          parse_bytes_go false (acc ++ [b]) (escape_bytes v2 ++ rest) := by
        simp [parse_bytes_go, hb]
      rw [hs, ih (acc ++ [b]) rest h]
      simp

theorem encodeComponents_headNonzero (cs : List Component) :
    headNonzero (encodeComponents cs) := by
  cases cs with
  | nil => trivial
  | cons c rest => cases c <;> simp [encodeComponents, encodeComponent,
      append_component, append_i64, append_f64, append_bytes, headNonzero]

theorem length_le_encodeComponents (cs : List Component) :
    cs.length ≤ (encodeComponents cs).length := by
  induction cs with
  | nil => simp [encodeComponents]
  | cons c rest ih =>
    obtain ⟨a, u, he⟩ := encodeComponent_cons c
    simp [encodeComponents, he]
    omega

theorem as_components_go_tag1 (f : Nat) (body rest : Bytes) (h : body.length = 8) :
    as_components_go (f + 1) (1 :: (body ++ rest)) =
      (as_components_go f rest).map
        (fun cs => Component.i64 (u64ToI64 (beVal body)) :: cs) := by
  simp only [as_components_go]
  rw [if_pos trivial,
    if_pos (show 8 ≤ (body ++ rest).length by simp [List.length_append, h]),
    List.take_left' h, List.drop_left' h]

theorem as_components_go_tag2 (f : Nat) (body rest : Bytes) (h : body.length = 8) :
    as_components_go (f + 1) (2 :: (body ++ rest)) =
      (as_components_go f rest).map (fun cs => Component.f64 (beVal body) :: cs) := by
  simp only [as_components_go]
  rw [if_pos trivial,
    if_pos (show 8 ≤ (body ++ rest).length by simp [List.length_append, h]),
    List.take_left' h, List.drop_left' h]
  rw [if_neg (by decide)]
  rw [if_pos (show 8 ≤ (body ++ rest).length by simp [List.length_append, h])]

theorem as_components_go_tag3 (f : Nat) (rem bs payload : Bytes)
    (h : parse_bytes payload = some (rem, bs)) :
    as_components_go (f + 1) (3 :: payload) =
      (as_components_go f rem).map (fun cs => Component.bytes bs :: cs) := by
  simp only [as_components_go]
  rw [if_pos trivial, h]
  rw [if_neg (by decide), if_neg (by decide)]

theorem as_components_go_encode (cs : List Component) :
    ∀ fuel, cs.length ≤ fuel → (∀ c ∈ cs, componentWF c) →
      as_components_go fuel (encodeComponents cs) = some cs := by
  induction cs with
  | nil => intro fuel _ _; cases fuel <;> rfl
  | cons c rest ih =>
    intro fuel hf hwf
    cases fuel with
    | zero => simp at hf
    | succ f =>
      have hrest : ∀ x ∈ rest, componentWF x := fun x hx => hwf x (by simp [hx])
      have hfr : rest.length ≤ f := by simp at hf; omega
      cases c with
      | i64 v =>
        obtain ⟨hv0, hv1⟩ := hwf (.i64 v) (by simp)
        have hlt : i64ToU64 v < 256 ^ 8 := by
          have h2 := i64ToU64_lt v
          norm_num at h2 ⊢
          omega
        show as_components_go (f + 1)
          (1 :: (beBytes 8 (i64ToU64 v) ++ encodeComponents rest)) = _
        rw [as_components_go_tag1 f _ _ (beBytes_length ..), ih f hfr hrest,
          beVal_beBytes 8 _ hlt, u64ToI64_i64ToU64 v hv0 hv1]
        rfl
      | f64 bits =>
        have hb : bits < 256 ^ 8 := by
          have h2 : bits < 2 ^ 64 := hwf (.f64 bits) (by simp)
          norm_num at h2 ⊢
          omega
        show as_components_go (f + 1)
          (2 :: (beBytes 8 bits ++ encodeComponents rest)) = _
        rw [as_components_go_tag2 f _ _ (beBytes_length ..), ih f hfr hrest,
          beVal_beBytes 8 _ hb]
        rfl
      | bytes v =>
        have hp : parse_bytes (escape_bytes v ++ encodeComponents rest) =
            some (encodeComponents rest, v) := by
          have h2 := parse_bytes_go_escape v [] (encodeComponents rest)
            (encodeComponents_headNonzero rest)
          simpa [parse_bytes] using h2
        show as_components_go (f + 1)
          (3 :: (escape_bytes v ++ encodeComponents rest)) = _
        rw [as_components_go_tag3 f _ _ _ hp, ih f hfr hrest]
        rfl

/-- C7 counterexample input: a key holding a single NaN f64 component.  The
round trip reproduces the component bit-exactly, but Vec equality through
impl PartialEq for Component (Rust f64 ==) is false on NaN, so the decoded
sequence does not equal the original under the claimed componentwise
equality. -/
theorem claim_C7_counterexample :
    as_components (keyFromComponents [Component.f64 0x7FF8000000000000]) =
        some [Component.f64 0x7FF8000000000000] ∧
      componentsEqb [Component.f64 0x7FF8000000000000]
        [Component.f64 0x7FF8000000000000] = false := by
  constructor
  · rfl
  · rfl

/-- C7 (amended): for every component sequence within the machine ranges
(i64 range, f64 bit pattern below 2^64, payload bytes below 256 - payloads
may contain 0x00), the round trip is bit-exact: as_components of Key::from
returns precisely the original components; the claimed componentwise
equality additionally holds whenever no component is an f64 NaN. -/
theorem claim_C7_amended (cs : List Component) (hwf : ∀ c ∈ cs, componentWF c) :
    as_components (keyFromComponents cs) = some cs ∧
      ((∀ c ∈ cs, componentNotNaN c) → componentsEqb cs cs = true) := by
  constructor
  · rw [keyFromComponents_eq]
    exact as_components_go_encode cs _ (length_le_encodeComponents cs) hwf
  · intro hn
    induction cs with
    | nil => rfl
    | cons c rest ih =>
      have hc : componentEqb c c = true := by
        cases c with
        | i64 v => simp [componentEqb]
        | bytes v => simp [componentEqb]
        | f64 bits =>
          have : f64IsNaN bits = false := hn (.f64 bits) (by simp)
          simp [componentEqb, f64Eq, this]
      have hr : componentsEqb rest rest = true :=
        ih (fun x hx => hwf x (by simp [hx])) (fun x hx => hn x (by simp [hx]))
      simp [componentsEqb, hc, hr]

/-- Witness for C7: a sequence with a negative i64, a payload containing
0x00 and an f64, all hypotheses discharged concretely. -/
theorem claim_C7_witness :
    as_components (keyFromComponents
        [Component.i64 (-5), Component.bytes [0, 104], Component.f64 1]) =
        some [Component.i64 (-5), Component.bytes [0, 104], Component.f64 1] ∧
      ((∀ c ∈ [Component.i64 (-5), Component.bytes [0, 104], Component.f64 1],
          componentNotNaN c) →
        componentsEqb
          [Component.i64 (-5), Component.bytes [0, 104], Component.f64 1]
          [Component.i64 (-5), Component.bytes [0, 104], Component.f64 1] = true) :=
  claim_C7_amended _ (by decide)

/-! ## Value codec lemmas -/

theorem try_u8_to_ty_roundtrip (t : VTy) : try_u8_to_ty (ty_to_u8 t) = .ok t := by
  cases t <;> rfl

theorem readN_append (n : Nat) (l m : Bytes) (h : l.length = n) :
    readN n (l ++ m) = some (l, m) := by
  unfold readN
  rw [if_pos (by simp [List.length_append, h]), ← h, List.take_left, List.drop_left]

theorem readN_two (a b : Nat) (l : Bytes) : readN 2 (a :: b :: l) = some ([a, b], l) := by
  unfold readN
  rw [if_pos (by simp)]
  simp [List.take_succ_cons, List.drop_succ_cons]

theorem wfValue_i64 (x : Int) (h : wfValue (.i64 x) = true) :
    -(2 : Int) ^ 63 ≤ x ∧ x < 2 ^ 63 := by
  simpa [wfValue] using h

theorem wfValue_f64 (x : Nat) (h : wfValue (.f64 x) = true) : x < 2 ^ 64 := by
  simpa [wfValue] using h

theorem wfValue_bytes_len (x : Bytes) (h : wfValue (.bytes x) = true) :
    x.length < 2 ^ 32 := by
  simp [wfValue, Bool.and_eq_true] at h
  exact h.1

theorem wfValue_list_parts (ity : VTy) (items : List DynamicValue)
    (h : wfValue (.list ity items) = true) :
    items.length < 2 ^ 32 ∧ wfItems ity items = true := by
  simp only [wfValue, Bool.and_eq_true, decide_eq_true_eq] at h
  exact ⟨h.1.1, h.2⟩

theorem wfValue_strukt (fields : List (Nat × DynamicValue))
    (h : wfValue (.strukt fields) = true) : wfFields fields = true := h

theorem wfItems_cons (ity : VTy) (v : DynamicValue) (vs : List DynamicValue)
    (h : wfItems ity (v :: vs) = true) :
    v.wireTy = ity ∧ wfValue v = true ∧ wfItems ity vs = true := by
  simpa [wfItems, Bool.and_eq_true, decide_eq_true_eq, and_assoc] using h

theorem wfValue_ne_stop (v : DynamicValue) (h : wfValue v = true) :
    v.wireTy ≠ .stop := by
  cases v <;> simp [DynamicValue.wireTy, wfValue] at h ⊢

theorem wfFieldsFrom_to_wfFields (fs : List (Nat × DynamicValue)) (b : Nat)
    (h : wfFieldsFrom b fs = true) : wfFields fs = true := by
  cases fs with
  | nil => rfl
  | cons p rest =>
    obtain ⟨i, v⟩ := p
    simp only [wfFieldsFrom, wfFields, Bool.and_eq_true] at h ⊢
    exact ⟨⟨h.1.1.2, h.1.2⟩, h.2⟩

theorem wfFieldsFrom_facts (fs : List (Nat × DynamicValue)) :
    ∀ b, wfFieldsFrom b fs = true →
      (∀ p ∈ fs, b < p.1 ∧ p.1 < 256 ∧ wfValue p.2 = true) ∧
        List.Pairwise (fun p q : Nat × DynamicValue => p.1 < q.1) fs := by
  induction fs with
  | nil => intro b _; exact ⟨by simp, List.Pairwise.nil⟩
  | cons p rest ih =>
    intro b h
    obtain ⟨i, v⟩ := p
    simp only [wfFieldsFrom, Bool.and_eq_true, decide_eq_true_eq] at h
    obtain ⟨⟨⟨hbi, hi⟩, hv⟩, hrest⟩ := h
    obtain ⟨hmem, hpw⟩ := ih i hrest
    refine ⟨?_, ?_⟩
    · intro q hq
      rcases List.mem_cons.mp hq with h1 | h1
      · subst h1; exact ⟨hbi, hi, hv⟩
      · obtain ⟨h2, h3, h4⟩ := hmem q h1
        exact ⟨by omega, h3, h4⟩
    · exact List.Pairwise.cons (fun q hq => (hmem q hq).1) hpw

theorem wfFields_facts (fields : List (Nat × DynamicValue))
    (h : wfFields fields = true) :
    (∀ p ∈ fields, p.1 < 256 ∧ wfValue p.2 = true) ∧
      List.Pairwise (fun p q : Nat × DynamicValue => p.1 < q.1) fields := by
  cases fields with
  | nil => exact ⟨by simp, List.Pairwise.nil⟩
  | cons p rest =>
    obtain ⟨i, v⟩ := p
    simp only [wfFields, Bool.and_eq_true, decide_eq_true_eq] at h
    obtain ⟨⟨hi, hv⟩, hrest⟩ := h
    obtain ⟨hmem, hpw⟩ := wfFieldsFrom_facts rest i hrest
    refine ⟨?_, ?_⟩
    · intro q hq
      rcases List.mem_cons.mp hq with h1 | h1
      · subst h1; exact ⟨hi, hv⟩
      · exact ((hmem q h1).2)
    · exact List.Pairwise.cons (fun q hq => (hmem q hq).1) hpw

theorem btreeInsert_append (m : List (Nat × DynamicValue)) (k : Nat)
    (v : DynamicValue) (h : ∀ p ∈ m, p.1 < k) : btreeInsert m k v = m ++ [(k, v)] := by
  induction m with
  | nil => rfl
  | cons p rest ih =>
    obtain ⟨k2, v2⟩ := p
    have hk2 : k2 < k := h (k2, v2) (by simp)
    simp only [btreeInsert]
    rw [if_neg (by omega), if_neg (by omega),
      ih fun q hq => h q (by simp [hq])]
    simp

theorem encodeValue_pos (v : DynamicValue) (h : wfValue v = true) :
    1 ≤ (encodeValue v).length := by
  cases v <;> simp [encodeValue, beBytes_length, wfValue] at h ⊢
  omega

mutual

theorem sizeValue_le_enc (v : DynamicValue) (h : wfValue v = true) :
    sizeValue v ≤ (encodeValue v).length + 1 := by
  cases v with
  | i64 x => simp [sizeValue, encodeValue, beBytes_length]
  | f64 x => simp [sizeValue, encodeValue, beBytes_length]
  | bytes x => simp [sizeValue, encodeValue, beBytes_length]
  | stop => exact absurd h (by simp [wfValue])
  | list ity items =>
    have h2 := (wfValue_list_parts ity items h).2
    have h3 := sizeItems_le_enc ity items h2
    simp only [sizeValue, encodeValue]
    simp [beBytes_length]
    omega
  | strukt fields =>
    have h3 := sizeFields_le_enc fields (wfValue_strukt fields h)
    simp only [sizeValue, encodeValue]
    simp
    omega

theorem sizeItems_le_enc (ity : VTy) (items : List DynamicValue)
    (h : wfItems ity items = true) :
    sizeItems items ≤ (encodeItems items).length + 2 := by
  cases items with
  | nil => simp [sizeItems, encodeItems]
  | cons v vs =>
    obtain ⟨hty, hv, hvs⟩ := wfItems_cons ity v vs h
    have h1 := sizeValue_le_enc v hv
    have h2 := sizeItems_le_enc ity vs hvs
    have h3 := encodeValue_pos v hv
    simp only [sizeItems, encodeItems]
    simp only [List.length_append]
    omega

theorem sizeFields_le_enc (fields : List (Nat × DynamicValue))
    (h : wfFields fields = true) :
    sizeFields fields ≤ (encodeFields fields).length + 2 := by
  cases fields with
  | nil => simp [sizeFields, encodeFields]
  | cons p rest =>
    obtain ⟨i, v⟩ := p
    have h2 : wfValue v = true ∧ wfFieldsFrom i rest = true := by
      simp only [wfFields, Bool.and_eq_true] at h
      exact ⟨h.1.2, h.2⟩
    have h1 := sizeValue_le_enc v h2.1
    have h3 := sizeFields_le_enc rest (wfFieldsFrom_to_wfFields rest i h2.2)
    simp only [sizeFields, encodeFields]
    simp only [List.length_cons, List.length_append]
    omega

end

theorem decode_encode_all (fuel : Nat) :
    (∀ v rest, wfValue v = true → sizeValue v < fuel →
      decodeValue fuel v.wireTy (encodeValue v ++ rest) = .ok (v, rest)) ∧
    (∀ ity items rest, wfItems ity items = true → sizeItems items < fuel →
      decodeItems fuel ity items.length (encodeItems items ++ rest) =
        .ok (items, rest)) ∧
    (∀ fields rest acc,
      List.Pairwise (fun p q : Nat × DynamicValue => p.1 < q.1) fields →
      (∀ p ∈ fields, wfValue p.2 = true) →
      (∀ p ∈ acc, ∀ q ∈ fields, p.1 < q.1) →
      sizeFields fields < fuel →
      decodeFields fuel acc (encodeFields fields ++ 255 :: 255 :: rest) =
        .ok (acc ++ fields, rest)) := by
  induction fuel with
  | zero =>
    exact ⟨fun v rest _ h => absurd h (Nat.not_lt_zero _),
      fun i it r _ h => absurd h (Nat.not_lt_zero _),
      fun fl r a _ _ _ h => absurd h (Nat.not_lt_zero _)⟩
  | succ f ih =>
    obtain ⟨ih1, ih2, ih3⟩ := ih
    refine ⟨?_, ?_, ?_⟩
    · intro v rest hwf hsz
      cases v with
      | i64 x =>
        obtain ⟨h0, h1⟩ := wfValue_i64 x hwf
        have hlt : i64ToU64 x < 256 ^ 8 := by
          have h2 := i64ToU64_lt x
          norm_num at h2 ⊢
          omega
        show decodeValue (f + 1) .tI64 (beBytes 8 (i64ToU64 x) ++ rest) = _
        simp only [decodeValue]
        rw [readN_append 8 _ _ (beBytes_length ..)]
        simp [beVal_beBytes 8 _ hlt, u64ToI64_i64ToU64 x h0 h1]
      | f64 x =>
        have hx : x < 256 ^ 8 := by
          have h2 := wfValue_f64 x hwf
          norm_num at h2 ⊢
          omega
        show decodeValue (f + 1) .tF64 (beBytes 8 x ++ rest) = _
        simp only [decodeValue]
        rw [readN_append 8 _ _ (beBytes_length ..)]
        simp [beVal_beBytes 8 _ hx]
      | bytes x =>
        have hl : x.length < 2 ^ 32 := wfValue_bytes_len x hwf
        have hmod : x.length % 2 ^ 32 = x.length := Nat.mod_eq_of_lt hl
        have hlt : x.length % 2 ^ 32 < 256 ^ 4 := by
          norm_num
          omega
        have hbv : beVal (beBytes 4 (x.length % 2 ^ 32)) = x.length := by
          rw [beVal_beBytes 4 _ hlt, hmod]
        norm_num at hbv
        show decodeValue (f + 1) .tBytes
          ((beBytes 4 (x.length % 2 ^ 32) ++ x) ++ rest) = _
        rw [List.append_assoc]
        simp only [decodeValue]
        rw [readN_append 4 _ _ (beBytes_length ..)]
        simp [hbv, readN_append x.length x rest rfl]
      | stop => exact absurd hwf (by simp [wfValue])
      | list ity items =>
        obtain ⟨hn, hitems⟩ := wfValue_list_parts ity items hwf
        have hmod : items.length % 2 ^ 32 = items.length := Nat.mod_eq_of_lt hn
        have hlt : items.length % 2 ^ 32 < 256 ^ 4 := by
          norm_num
          omega
        have hs : sizeItems items < f := by
          simp only [sizeValue] at hsz
          omega
        show decodeValue (f + 1) .tList
          ((ty_to_u8 ity :: (beBytes 4 (items.length % 2 ^ 32) ++ encodeItems items)) ++ rest) = _
        simp only [List.cons_append, List.append_assoc]
        have hbv : beVal (beBytes 4 (items.length % 2 ^ 32)) = items.length := by
          rw [beVal_beBytes 4 _ hlt, hmod]
        norm_num at hbv
        simp only [decodeValue]
        rw [try_u8_to_ty_roundtrip]
        simp only []
        rw [readN_append 4 _ _ (beBytes_length ..)]
        simp [hbv, ih2 ity items rest hitems hs]
      | strukt fields =>
        have hwff := wfValue_strukt fields hwf
        obtain ⟨hmem, hpw⟩ := wfFields_facts fields hwff
        have hs : sizeFields fields < f := by
          simp only [sizeValue] at hsz
          omega
        show decodeValue (f + 1) .tStruct
          ((encodeFields fields ++ [255, 255]) ++ rest) = _
        rw [List.append_assoc]
        show decodeValue (f + 1) .tStruct
          (encodeFields fields ++ 255 :: 255 :: rest) = _
        simp only [decodeValue]
        rw [ih3 fields rest [] hpw (fun p hp => (hmem p hp).2) (by simp) hs]
        simp
    · intro ity items rest hwf hsz
      cases items with
      | nil =>
        show decodeItems (f + 1) ity 0 (encodeItems [] ++ rest) = .ok ([], rest)
        simp only [encodeItems, List.nil_append]
        rfl
      | cons v vs =>
        obtain ⟨hty, hv, hvs⟩ := wfItems_cons ity v vs hwf
        have hs1 : sizeValue v < f := by
          simp only [sizeItems] at hsz
          omega
        have hs2 : sizeItems vs < f := by
          simp only [sizeItems] at hsz
          omega
        subst hty
        show decodeItems (f + 1) v.wireTy (vs.length + 1)
          ((encodeValue v ++ encodeItems vs) ++ rest) = _
        rw [List.append_assoc]
        simp only [decodeItems]
        rw [ih1 v _ hv hs1]
        simp [ih2 v.wireTy vs rest hvs hs2]
    · intro fields rest acc hpw hwf hacc hsz
      cases fields with
      | nil =>
        show decodeFields (f + 1) acc (encodeFields [] ++ 255 :: 255 :: rest) =
          .ok (acc ++ [], rest)
        simp only [encodeFields, List.nil_append, List.append_nil]
        simp only [decodeFields]
        rw [readN_two]
        simp [try_u8_to_ty]
      | cons p fs =>
        obtain ⟨i, v⟩ := p
        have hv : wfValue v = true := (hwf (i, v) (by simp))
        obtain ⟨hhead, hpw2⟩ := List.pairwise_cons.mp hpw
        have hs1 : sizeValue v < f := by
          simp only [sizeFields] at hsz
          omega
        have hs2 : sizeFields fs < f := by
          simp only [sizeFields] at hsz
          omega
        have hbt : btreeInsert acc i v = acc ++ [(i, v)] :=
          btreeInsert_append acc i v fun p hp => hacc p hp (i, v) (by simp)
        have hacc2 : ∀ p ∈ acc ++ [(i, v)], ∀ q ∈ fs, p.1 < q.1 := by
          intro p hp q hq
          rcases List.mem_append.mp hp with h1 | h1
          · exact hacc p h1 q (by simp [hq])
          · simp at h1
            subst h1
            exact hhead q hq
        show decodeFields (f + 1) acc
          ((ty_to_u8 v.wireTy :: i :: (encodeValue v ++ encodeFields fs)) ++
            255 :: 255 :: rest) = .ok (acc ++ (i, v) :: fs, rest)
        simp only [List.cons_append, List.append_assoc]
        simp only [decodeFields]
        rw [readN_two]
        simp only [try_u8_to_ty_roundtrip]
        simp only [wfValue_ne_stop v hv, if_false, ite_false]
        rw [ih1 v _ hv hs1]
        simp only [hbt]
        simp [ih3 fs rest (acc ++ [(i, v)]) hpw2 (fun q hq => hwf q (by simp [hq]))
            hacc2 hs2]

/-- C8: for every well-formed dynamic struct (nested structs, lists whose
items share the list's element type, empty lists possibly tagged Any, tree
depth at most 10), decoding its encoding succeeds and re-encoding the
decoded dynamic value yields the identical byte string; the round trip is in
fact exact on the decoded field map. -/
theorem claim_C8_roundtrip (fields : List (Nat × DynamicValue))
    (hwf : wfFields fields = true)
    (_hdepth : depthValue (.strukt fields) ≤ 10) :
    ∃ decoded, dynamicStructFromSlice (structToVec fields) = .ok decoded ∧
      structToVec decoded = structToVec fields := by
  refine ⟨fields, ?_, rfl⟩
  obtain ⟨hmem, hpw⟩ := wfFields_facts fields hwf
  have hsz : sizeFields fields < (structToVec fields).length + 1 := by
    have h1 := sizeFields_le_enc fields hwf
    have h2 : (structToVec fields).length = (encodeFields fields).length + 2 := by
      simp [structToVec, encodeValue]
    omega
  have h3 := (decode_encode_all ((structToVec fields).length + 1)).2.2 fields [] []
    hpw (fun p hp => (hmem p hp).2) (by simp) hsz
  have h4 : dynamicStructFromSlice (structToVec fields) =
      match decodeFields ((structToVec fields).length + 1) []
        (encodeFields fields ++ 255 :: 255 :: []) with
      | .error e => .error e
      | .ok (fs, _) => .ok fs := rfl
  rw [h4, h3]
  simp

/-- Witness for C8: a struct holding an i64, an empty Any-tagged list, and a
nested struct with a zero byte in a payload. -/
theorem claim_C8_witness :
    ∃ decoded,
      dynamicStructFromSlice (structToVec
        [(1, .i64 12345), (2, .list .any []),
          (3, .strukt [(0, .bytes [1, 2, 0])])]) = .ok decoded ∧
        structToVec decoded = structToVec
          [(1, .i64 12345), (2, .list .any []),
            (3, .strukt [(0, .bytes [1, 2, 0])])] :=
  claim_C8_roundtrip _ (by decide) (by decide)

/-! ## Table engine lemmas -/

theorem countP_le_one_unique {α : Type} (p : α → Bool) :
    ∀ l : List α, l.countP p ≤ 1 →
      ∀ a ∈ l, p a = true → ∀ b ∈ l, p b = true → a = b := by
  intro l
  induction l with
  | nil => intro _ a ha; simp at ha
  | cons c rest ih =>
    intro hc a ha hpa b hb hpb
    rw [List.countP_cons] at hc
    by_cases hpc : p c = true
    · have hr0 : rest.countP p = 0 := by rw [if_pos hpc] at hc; omega
      have hnot : ∀ x ∈ rest, ¬ p x = true := List.countP_eq_zero.mp hr0
      have hac : a = c := by
        rcases List.mem_cons.mp ha with h | h
        · exact h
        · exact absurd hpa (hnot a h)
      have hbc : b = c := by
        rcases List.mem_cons.mp hb with h | h
        · exact h
        · exact absurd hpb (hnot b h)
      rw [hac, hbc]
    · have hpc2 : p c = false := by simpa using hpc
      have hc2 : rest.countP p ≤ 1 := by rw [if_neg hpc] at hc; omega
      have har : a ∈ rest := by
        rcases List.mem_cons.mp ha with h | h
        · subst h; rw [hpa] at hpc2; cases hpc2
        · exact h
      have hbr : b ∈ rest := by
        rcases List.mem_cons.mp hb with h | h
        · subst h; rw [hpb] at hpc2; cases hpc2
        · exact h
      exact ih hc2 a har hpa b hbr hpb

theorem latestCount_clear_le (s : TableState) (k k2 : Bytes) :
    latestCount (update_last_to_not_latest s k).1 k2 ≤ latestCount s k2 := by
  unfold latestCount update_last_to_not_latest
  simp only [List.countP_map]
  apply List.countP_mono_left
  intro r _ h
  simp only [Function.comp] at h
  split at h
  · simp at h
  · exact h

theorem latestCount_clear_version_le (s : TableState) (k : Bytes) (v : Int)
    (k2 : Bytes) :
    latestCount (update_last_to_not_latest_with_version s k v).1 k2 ≤
      latestCount s k2 := by
  unfold latestCount update_last_to_not_latest_with_version
  simp only [List.countP_map]
  apply List.countP_mono_left
  intro r _ h
  simp only [Function.comp] at h
  split at h
  · simp at h
  · exact h

theorem insert_row_ok (s : TableState) (k : Bytes) (d : Bool) (val : Bytes)
    (t2 : TableState) (ver : Int)
    (h : insert_row s k d val = .ok (t2, ver)) :
    latestCount s k = 0 ∧ ver = s.next_rowid ∧
      t2 = { rows := s.rows ++ [⟨s.next_rowid, k, d, true, val⟩],
             next_rowid := s.next_rowid + 1 } := by
  unfold insert_row at h
  split at h
  · cases h
  · rename_i hany
    refine ⟨?_, ?_, ?_⟩
    · rw [latestCount, List.countP_eq_zero]
      intro r hr hp
      exact hany (List.any_eq_true.mpr ⟨r, hr, hp⟩)
    · cases h; rfl
    · cases h; rfl

theorem latestInv_insert_row (s : TableState) (k : Bytes) (d : Bool)
    (val : Bytes) (t2 : TableState) (ver : Int) (hinv : latestInv s)
    (h : insert_row s k d val = .ok (t2, ver)) : latestInv t2 := by
  obtain ⟨h0, _, ht⟩ := insert_row_ok s k d val t2 ver h
  subst ht
  intro k2
  unfold latestCount at h0 ⊢
  rw [List.countP_append]
  by_cases hk : k = k2
  · subst hk
    have h1 : List.countP (fun r => decide (r.key = k) && r.is_latest)
        [Row.mk s.next_rowid k d true val] ≤ 1 := by simp [List.countP_cons]
    omega
  · have h1 : List.countP (fun r => decide (r.key = k2) && r.is_latest)
        [Row.mk s.next_rowid k d true val] = 0 := by
      simp [List.countP_cons, hk]
    have h2 := hinv k2
    unfold latestCount at h2
    omega

theorem latestInv_inner_insert (ex : Extractor) (s : DB) (k v : Bytes)
    (s2 : DB) (ver : Int) (hinv : latestInv s.table)
    (h : inner_insert ex s k v = .ok (s2, ver)) : latestInv s2.table := by
  unfold inner_insert at h
  simp only [] at h
  have hinv1 : latestInv (match tableGet s.table k with
      | some _ => (update_last_to_not_latest s.table k).1
      | none => s.table) := by
    cases tableGet s.table k with
    | none => exact hinv
    | some p => exact fun k2 => le_trans (latestCount_clear_le s.table k k2) (hinv k2)
  cases hrow : insert_row (match tableGet s.table k with
      | some _ => (update_last_to_not_latest s.table k).1
      | none => s.table) k false v with
  | error e => rw [hrow] at h; simp at h
  | ok p =>
    obtain ⟨t2, ver2⟩ := p
    rw [hrow] at h
    simp only [] at h
    cases hidx : table_update ex s.idx [.upsert [(k, v, ver2)]] with
    | error e => rw [hidx] at h; simp at h
    | ok idx2 =>
      rw [hidx] at h
      simp only [Except.ok.injEq, Prod.mk.injEq] at h
      obtain ⟨hs2, _⟩ := h
      rw [← hs2]
      exact latestInv_insert_row _ k false v t2 ver2 hinv1 hrow

theorem latestInv_tableInsert (ex : Extractor) (s : DB) (k v : Bytes)
    (hinv : latestInv s.table) : latestInv (tableInsert ex s k v).2.table := by
  unfold tableInsert
  cases h : inner_insert ex s k v with
  | error e => exact hinv
  | ok p =>
    obtain ⟨s2, ver⟩ := p
    exact latestInv_inner_insert ex s k v s2 ver hinv h

theorem latestInv_inner_insert_batch (ex : Extractor) :
    ∀ (kvs : List (Bytes × Bytes)) (s s2 : DB), latestInv s.table →
      inner_insert_batch ex s kvs = .ok s2 → latestInv s2.table := by
  intro kvs
  induction kvs with
  | nil =>
    intro s s2 hinv h
    cases h
    exact hinv
  | cons kv rest ih =>
    intro s s2 hinv h
    obtain ⟨k, v⟩ := kv
    unfold inner_insert_batch at h
    cases hrow : inner_insert ex s k v with
    | error e => rw [hrow] at h; simp at h
    | ok p =>
      obtain ⟨s3, ver⟩ := p
      rw [hrow] at h
      simp only [] at h
      exact ih s3 s2 (latestInv_inner_insert ex s k v s3 ver hinv hrow) h

theorem latestInv_tableInsertBatch (ex : Extractor) (s : DB)
    (kvs : List (Bytes × Bytes)) (hinv : latestInv s.table) :
    latestInv (tableInsertBatch ex s kvs).2.table := by
  unfold tableInsertBatch
  cases h : inner_insert_batch ex s kvs with
  | error e => exact hinv
  | ok s2 => exact latestInv_inner_insert_batch ex kvs s s2 hinv h

theorem latestInv_tableDelete (s : DB) (k : Bytes) (hinv : latestInv s.table) :
    latestInv (tableDelete s k).2.table := by
  unfold tableDelete
  simp only []
  split
  · cases h : insert_row (update_last_to_not_latest s.table k).1 k true [] with
    | error e => exact hinv
    | ok p =>
      obtain ⟨t2, ver⟩ := p
      exact latestInv_insert_row _ k true [] t2 ver
        (fun k2 => le_trans (latestCount_clear_le s.table k k2) (hinv k2)) h
  · exact hinv

theorem latestInv_delete_with_version (s : DB) (k : Bytes) (version : Int)
    (hinv : latestInv s.table) :
    latestInv (delete_with_version s k version).2.table := by
  unfold delete_with_version
  simp only []
  split
  · cases h : insert_row
        (update_last_to_not_latest_with_version s.table k version).1 k true [] with
    | error e => exact hinv
    | ok p =>
      obtain ⟨t2, ver⟩ := p
      exact latestInv_insert_row _ k true [] t2 ver
        (fun k2 => le_trans (latestCount_clear_version_le s.table k version k2)
          (hinv k2)) h
  · exact hinv

theorem latestInv_tableUpdateByF (ex : Extractor) (s : DB) (k : Bytes)
    (f : Option (Bytes × Int) → Except TErr UpdateResult)
    (hinv : latestInv s.table) :
    latestInv (tableUpdateByF ex s k f).2.table := by
  unfold tableUpdateByF
  simp only []
  cases f (tableGet s.table k) with
  | error e => exact hinv
  | ok res =>
    cases res with
    | notChange => exact hinv
    | del =>
      simp only []
      have h2 := latestInv_delete_with_version s k
        (((tableGet s.table k).map fun x => x.2).getD 0) hinv
      cases hd : delete_with_version s k
          (((tableGet s.table k).map fun x => x.2).getD 0) with
      | mk r s2 =>
        rw [hd] at h2
        cases r with
        | error e => exact h2
        | ok v => exact h2
    | updateVal nv =>
      simp only []
      have h2 := latestInv_tableInsert ex s k nv hinv
      cases hd : tableInsert ex s k nv with
      | mk r s2 =>
        rw [hd] at h2
        cases r with
        | error e => exact h2
        | ok v => exact h2

theorem latestInv_applyOp (ex : Extractor) (s : DB) (op : Op)
    (hinv : latestInv s.table) : latestInv (applyOp ex s op).table := by
  cases op with
  | ins k v => exact latestInv_tableInsert ex s k v hinv
  | insBatch kvs => exact latestInv_tableInsertBatch ex s kvs hinv
  | del k => exact latestInv_tableDelete s k hinv
  | delWithVersion k v => exact latestInv_delete_with_version s k v hinv
  | upd k f => exact latestInv_tableUpdateByF ex s k f hinv

/-- C9: after any sequence of insert, insert_batch, delete,
delete_with_version, and update operations on a freshly created table, at
most one physical row per key has is_latest = 1.  Inserts only succeed when
the partial unique index finds no other is_latest row for the key, every
clearing step only lowers the count, and failed transactions roll back. -/
theorem claim_C9_latest_unique (ex : Extractor) (ops : List Op) (k : Bytes) :
    latestCount (runOps ex ops).table k ≤ 1 := by
  suffices h : ∀ s : DB, latestInv s.table → latestInv (ops.foldl (applyOp ex) s).table by
    exact h initDB (fun k2 => by simp [initTable, latestCount, initDB]) k
  induction ops with
  | nil => intro s hinv; exact hinv
  | cons op rest ih =>
    intro s hinv
    exact ih (applyOp ex s op) (latestInv_applyOp ex s op hinv)

/-- C10: delete_with_version returns a nonzero version (the tombstone's
fresh rowid) exactly when the is_latest row for the key has rowid equal to
the expected version; on 0 the state is unchanged, and on success the
matched row's is_latest flag is cleared and a tombstone with the returned
rowid is appended, the index state untouched as it is on the whole path. -/
theorem claim_C10_optimistic_delete (s : DB) (k : Bytes) (version : Int)
    (hinv : latestCount s.table k ≤ 1) (hnext : 1 ≤ s.table.next_rowid) :
    ∃ r, (delete_with_version s k version).1 = .ok r ∧
      (r ≠ 0 ↔ ∃ row ∈ s.table.rows,
        row.key = k ∧ row.is_latest = true ∧ row.rowid = version) ∧
      (r = 0 → (delete_with_version s k version).2 = s) ∧
      (r ≠ 0 → r = s.table.next_rowid ∧
        (delete_with_version s k version).2 =
          ⟨⟨(update_last_to_not_latest_with_version s.table k version).1.rows ++
               [⟨s.table.next_rowid, k, true, true, []⟩],
             s.table.next_rowid + 1⟩, s.idx⟩) := by
  have hmod : (update_last_to_not_latest_with_version s.table k version).2 =
      s.table.rows.any (fun r =>
        decide (r.rowid = version) && decide (r.key = k) && r.is_latest) := rfl
  have heta : update_last_to_not_latest_with_version s.table k version =
      ((update_last_to_not_latest_with_version s.table k version).1,
       (update_last_to_not_latest_with_version s.table k version).2) := rfl
  by_cases hany : s.table.rows.any (fun r =>
      decide (r.rowid = version) && decide (r.key = k) && r.is_latest) = true
  case pos =>
    obtain ⟨r0, hr0mem, hr0p⟩ := List.any_eq_true.mp hany
    simp only [Bool.and_eq_true, decide_eq_true_eq] at hr0p
    obtain ⟨⟨hr0v, hr0k⟩, hr0l⟩ := hr0p
    have hnoc : ((update_last_to_not_latest_with_version s.table k version).1.rows.any
        fun r => decide (r.key = k) && r.is_latest) = false := by
      rw [List.any_eq_false]
      intro r' hr'
      have hr'2 : r' ∈ s.table.rows.map (fun r =>
          if r.rowid = version ∧ r.key = k ∧ r.is_latest then
            { r with is_latest := false } else r) := hr'
      obtain ⟨r, hrmem, hfr⟩ := List.mem_map.mp hr'2
      simp only [Bool.and_eq_true, decide_eq_true_eq, not_and]
      by_cases hc : r.rowid = version ∧ r.key = k ∧ r.is_latest
      · rw [if_pos hc] at hfr
        rw [← hfr]
        intro _ hl
        simp at hl
      · rw [if_neg hc] at hfr
        rw [← hfr]
        intro hk hl
        have hinv2 : List.countP (fun r : Row =>
            decide (r.key = k) && r.is_latest) s.table.rows ≤ 1 := hinv
        have hru := countP_le_one_unique
          (fun r : Row => decide (r.key = k) && r.is_latest) s.table.rows hinv2
          r hrmem (by simp [hk, hl]) r0 hr0mem (by simp [hr0k, hr0l])
        exact absurd hl (by
          have : r = r0 := hru
          intro _
          exact hc (by rw [this]; exact ⟨hr0v, hr0k, hr0l⟩))
    have hnr : (update_last_to_not_latest_with_version
        s.table k version).1.next_rowid = s.table.next_rowid := rfl
    have hins : insert_row
        (update_last_to_not_latest_with_version s.table k version).1 k true [] =
        .ok (⟨(update_last_to_not_latest_with_version s.table k version).1.rows ++
              [⟨s.table.next_rowid, k, true, true, []⟩],
          s.table.next_rowid + 1⟩, s.table.next_rowid) := by
      unfold insert_row
      rw [hnoc]
      simp [hnr]
    have hdel : delete_with_version s k version =
        (.ok s.table.next_rowid,
         ⟨⟨(update_last_to_not_latest_with_version s.table k version).1.rows ++
               [⟨s.table.next_rowid, k, true, true, []⟩],
            s.table.next_rowid + 1⟩, s.idx⟩) := by
      unfold delete_with_version
      rw [heta]
      simp only []
      rw [hmod, hany]
      simp only [if_true]
      rw [hins]
    refine ⟨s.table.next_rowid, by rw [hdel], ?_, ?_, ?_⟩
    · constructor
      · intro _
        exact ⟨r0, hr0mem, hr0k, hr0l, hr0v⟩
      · intro _
        omega
    · intro h0
      exact absurd h0 (by omega)
    · intro _
      exact ⟨rfl, by rw [hdel]⟩
  case neg =>
    have hanyf : s.table.rows.any (fun r =>
        decide (r.rowid = version) && decide (r.key = k) && r.is_latest) = false := by
      simpa using hany
    have hdel : delete_with_version s k version = (.ok 0, s) := by
      unfold delete_with_version
      rw [heta]
      simp only []
      rw [hmod, hanyf]
      simp
    refine ⟨0, by rw [hdel], ?_, fun _ => by rw [hdel], fun h0 => absurd rfl h0⟩
    constructor
    · intro h0
      exact absurd rfl h0
    · intro hex
      obtain ⟨row, hmem, hk, hl, hv⟩ := hex
      have hat : s.table.rows.any (fun r =>
          decide (r.rowid = version) && decide (r.key = k) && r.is_latest) = true :=
        List.any_eq_true.mpr ⟨row, hmem, by simp [hk, hl, hv]⟩
      rw [hat] at hanyf
      cases hanyf

/-- Witness for C10: a one-row table where the latest row has rowid 1. -/
theorem claim_C10_witness :
    ∃ r, (delete_with_version ⟨⟨[⟨1, [7], false, true, [9]⟩], 2⟩, initIndex⟩
        [7] 1).1 = .ok r ∧
      (r ≠ 0 ↔ ∃ row ∈ (⟨[⟨1, [7], false, true, [9]⟩], 2⟩ : TableState).rows,
        row.key = [7] ∧ row.is_latest = true ∧ row.rowid = 1) ∧
      (r = 0 → (delete_with_version ⟨⟨[⟨1, [7], false, true, [9]⟩], 2⟩, initIndex⟩
        [7] 1).2 = ⟨⟨[⟨1, [7], false, true, [9]⟩], 2⟩, initIndex⟩) ∧
      (r ≠ 0 → r = (⟨[⟨1, [7], false, true, [9]⟩], 2⟩ : TableState).next_rowid ∧
        (delete_with_version ⟨⟨[⟨1, [7], false, true, [9]⟩], 2⟩, initIndex⟩
          [7] 1).2 =
          ⟨⟨(update_last_to_not_latest_with_version
               ⟨[⟨1, [7], false, true, [9]⟩], 2⟩ [7] 1).1.rows ++
               [⟨(⟨[⟨1, [7], false, true, [9]⟩], 2⟩ : TableState).next_rowid,
                 [7], true, true, []⟩],
             (⟨[⟨1, [7], false, true, [9]⟩], 2⟩ : TableState).next_rowid + 1⟩,
           initIndex⟩) :=
  claim_C10_optimistic_delete _ _ _ (by decide) (by decide)

/-- C1 divergence, evaluated: with the constant extractor, after insert [1]
then delete [1] the key is logically absent, so the invariant requires the
stored index set to equal the empty union; the code leaves the stale pair
([7], [1]) because neither delete nor delete_with_version performs any index
maintenance (and catch-up cannot repair it, see C4). -/
theorem claim_C1_failing :
    (runOps exConst [.ins [1] [10], .del [1]]).idx.data = [([7], [1])] ∧
      index_spec_pairs exConst (runOps exConst [.ins [1] [10], .del [1]]) = [] ∧
      tableGet (runOps exConst [.ins [1] [10], .del [1]]).table [1] = none :=
  ⟨rfl, rfl, rfl⟩

/-- C2 divergence, evaluated: primary keys [1] and [2] share index key [7];
updating [1] to a value whose extraction drops [7] deletes the rows of BOTH
primary keys, because inner_delete_iks issues DELETE WHERE ik = :ik with no
pk condition.  The pair ([7], [2]) disappears although pk [2] is untouched
and still logically present. -/
theorem claim_C2_failing :
    (runOps exVal [.ins [1] [0], .ins [2] [0], .ins [1] [9]]).idx.data = [] ∧
      tableGet (runOps exVal
        [.ins [1] [0], .ins [2] [0], .ins [1] [9]]).table [2] = some ([0], 2) :=
  ⟨rfl, rfl⟩

/-- C3 divergence, evaluated: after insert [1] then delete [1], the latest
row for [1] is the tombstone (still is_latest = 1); get skips tombstones, so
insert does not clear it and the partial unique index on (key, is_latest)
rejects the new row - insert fails with a substrate error instead of
succeeding. -/
theorem claim_C3_failing :
    (tableInsert exNone (runOps exNone [.ins [1] [5], .del [1]]) [1] [6]).1 =
        .error .sqlite ∧
      tableGet (runOps exNone [.ins [1] [5], .del [1]]).table [1] = none ∧
      (runOps exNone [.ins [1] [5], .del [1]]).table.rows.any
        (fun r => decide (r.key = [1]) && r.is_latest && r.is_deleted) = true :=
  ⟨rfl, rfl, rfl⟩

/-- C4 divergence, evaluated: the tombstone row (rowid 2, is_deleted = 1) is
streamed by scan_to_end with value some [] - the tombstone INSERT writes the
empty string, not NULL, so the callback never receives none; consequently
catch-up applies an upsert with the empty value for the tombstoned row
(storing ([7], [1]) under the constant extractor) instead of a delete. -/
theorem claim_C4_failing :
    scan_to_end (runOps exNone [.ins [1] [5], .del [1]]).table 0 =
        [([1], some [], 2)] ∧
      (runOps exNone [.ins [1] [5], .del [1]]).table.rows =
        [⟨1, [1], false, false, [5]⟩, ⟨2, [1], true, true, []⟩] ∧
      catch_up exConst (runOps exConst [.ins [1] [10], .del [1]]).table
        initIndex = .ok ⟨[([7], [1])], some 2⟩ :=
  ⟨rfl, rfl, rfl⟩

/-- C5 counterexample input: an index whose watermark is 5.  Applying an
upsert with version 3 stores watermark 3, not max(5, 3) = 5; applying a
delete with version 7 leaves the watermark at 5 instead of max(5, 7) = 7. -/
theorem claim_C5_counterexample :
    indexUpdate exNone ⟨[], some 5⟩ [1] [2] 3 = .ok ⟨[], some 3⟩ ∧
      some (3 : Int) ≠ some (max 5 3) ∧
      table_update exNone ⟨[], some 5⟩ [.del [([1], 7)]] = .ok ⟨[], some 5⟩ ∧
      some (5 : Int) ≠ some (max 5 7) :=
  ⟨rfl, by decide, rfl, by decide⟩

/-- C5 (amended): a successful upsert persists exactly the applied version
as the watermark (inner_save_version uses INSERT OR REPLACE with the raw
version), so the watermark can decrease when version < watermark; a delete
leaves the watermark untouched; the watermark is non-decreasing precisely
when upserts arrive with versions at least the current watermark, as the
table engine produces them. -/
theorem claim_C5_amended (ex : Extractor) (idx : IndexState) (pk value : Bytes)
    (version : Int) (idx2 : IndexState)
    (h : indexUpdate ex idx pk value version = .ok idx2) :
    idx2.watermark = some version ∧
      (∀ pk2, (delete_by_pk idx pk2).watermark = idx.watermark) ∧
      (idx.watermark.getD 0 ≤ version →
        idx.watermark.getD 0 ≤ idx2.watermark.getD 0) := by
  have hw : idx2.watermark = some version := by
    unfold indexUpdate at h
    cases hex : ex pk value with
    | error e => rw [hex] at h; simp at h
    | ok news =>
      rw [hex] at h
      simp only [] at h
      cases hins : inner_insert_iks (inner_delete_iks idx
          (List.filter (fun ik => !decide (ik ∈ news))
            (inner_get_prev_keys idx pk)))
          (List.filter (fun ik => !decide (ik ∈ inner_get_prev_keys idx pk)) news)
          pk with
      | error e => rw [hins] at h; simp at h
      | ok idx3 =>
        rw [hins] at h
        simp only [Except.ok.injEq] at h
        rw [← h]
        rfl
  refine ⟨hw, fun pk2 => rfl, ?_⟩
  intro hle
  rw [hw]
  simpa using hle

/-- Witness for C5: the concrete upsert of the counterexample. -/
theorem claim_C5_witness :
    (⟨[], some 7⟩ : IndexState).watermark = some 7 ∧
      (∀ pk2, (delete_by_pk ⟨[], some 5⟩ pk2).watermark =
        (⟨[], some 5⟩ : IndexState).watermark) ∧
      ((⟨[], some 5⟩ : IndexState).watermark.getD 0 ≤ 7 →
        (⟨[], some 5⟩ : IndexState).watermark.getD 0 ≤
          (⟨[], some 7⟩ : IndexState).watermark.getD 0) :=
  claim_C5_amended exNone ⟨[], some 5⟩ [1] [2] 7 ⟨[], some 7⟩ rfl

end VDB
